import Mathlib

/-!
Shallow embedding of `unquote.go` (package shellquote): a POSIX-shell-style
word splitter.  Strings are modelled at the code-point level as `List Char`,
matching the Go code's rune-by-rune `utf8.DecodeRuneInString` loops (the
model assumes, as in every configuration the package constructs, that the
configured quote and escape code points are single code points; byte-level
UTF-8 arithmetic is abstracted away).  Fallible operations return values
paired with an optional error, exactly as the Go functions return
`(words []string, err error)`.
-/

namespace Shellquote

/-- Strings at the code-point level. -/
abbrev Str := List Char

/-- The three terminal errors of the package (`unquote.go` lines 10-14). -/
inductive SplitError where
  | unterminatedSingleQuote
  | unterminatedDoubleQuote
  | unterminatedEscape
deriving DecidableEq

/-- Configuration record, mirroring `type SplitOptions struct` in the source. -/
structure SplitOptions where
  SplitChars : Str
  SingleChar : Char
  DoubleChar : Char
  EscapeChar : Char
  DoubleEscapeChars : Str
  Limit : Int
deriving DecidableEq

/-- `DefaultSplitChars = " \n\t"` from the source. -/
def DefaultSplitChars : Str := [' ', '\n', '\t']

/-- `DefaultSingleChar = '\x27'` (the single-quote code point) from the source. -/
def DefaultSingleChar : Char := Char.ofNat 39

/-- `DefaultDoubleChar = '\x22'` (the double-quote code point) from the source. -/
def DefaultDoubleChar : Char := Char.ofNat 34

/-- `DefaultEscapeChar` is the backslash, from the source. -/
def DefaultEscapeChar : Char := '\\'

/-- `DefaultDoubleEscapeChars` is dollar, backquote, double quote, newline,
backslash, from the source. -/
def DefaultDoubleEscapeChars : Str := ['$', Char.ofNat 96, Char.ofNat 34, '\n', '\\']

/-- `DefaultSplitOptions()` from the source. -/
def DefaultSplitOptions : SplitOptions :=
  { SplitChars := DefaultSplitChars
    SingleChar := DefaultSingleChar
    DoubleChar := DefaultDoubleChar
    EscapeChar := DefaultEscapeChar
    DoubleEscapeChars := DefaultDoubleEscapeChars
    Limit := -1 }

/-- `NoEscapeSplitOptions()` from the source: the defaults with
`EscapeChar = 0` (the null code point as disabled sentinel). -/
def NoEscapeSplitOptions : SplitOptions :=
  { DefaultSplitOptions with EscapeChar := Char.ofNat 0 }

mutual

/-- The `raw:` labelled block of `splitWord`.  The Go code scans forward and
writes untouched literal prefixes to the accumulator in chunks; appending each
scanned ordinary code point to `buf` one at a time produces the identical
accumulator contents.  Branch order (single, double, escape, split) is the
source's order. -/
def rawLoop (opts : SplitOptions) (buf : Str) (input : Str) :
    Except SplitError (Str × Str) :=
  match input with
  | [] => .ok (buf, [])
  | c :: cs =>
    if c = opts.SingleChar then singleLoop opts buf cs
    else if c = opts.DoubleChar then doubleLoop opts buf cs
    else if c = opts.EscapeChar then escapeLoop opts buf cs
    else if c ∈ opts.SplitChars then .ok (buf, cs)
    else rawLoop opts (buf ++ [c]) cs
termination_by structural input

/-- The `escape:` labelled block of `splitWord`: one code point is expected;
a newline is elided, anything else is appended verbatim; then back to raw. -/
def escapeLoop (opts : SplitOptions) (buf : Str) (input : Str) :
    Except SplitError (Str × Str) :=
  match input with
  | [] => .error .unterminatedEscape
  | c :: cs =>
    if c = '\n' then rawLoop opts buf cs
    else rawLoop opts (buf ++ [c]) cs
termination_by structural input

/-- The `single:` labelled block of `splitWord`: everything up to the next
single-quote code point is copied verbatim (`strings.IndexRune` plus a bulk
write in the source, here char by char); no closing quote is an error. -/
def singleLoop (opts : SplitOptions) (buf : Str) (input : Str) :
    Except SplitError (Str × Str) :=
  match input with
  | [] => .error .unterminatedSingleQuote
  | c :: cs =>
    if c = opts.SingleChar then rawLoop opts buf cs
    else singleLoop opts (buf ++ [c]) cs
termination_by structural input

/-- The `double:` labelled block of `splitWord`.  On the escape character the
source decodes the next code point and advances `cur` past it before testing
membership in `DoubleEscapeChars`; when the test fails both code points stay
pending for the next literal emit, which is what appending them to `buf`
models.  An escape character as the final code point leaves the loop and
yields the unterminated-double-quote error, as in the source. -/
def doubleLoop (opts : SplitOptions) (buf : Str) (input : Str) :
    Except SplitError (Str × Str) :=
  match input with
  | [] => .error .unterminatedDoubleQuote
  | c :: cs =>
    if c = opts.DoubleChar then rawLoop opts buf cs
    else if c = opts.EscapeChar then
      match cs with
      | [] => .error .unterminatedDoubleQuote
      | c2 :: cs2 =>
        if c2 ∈ opts.DoubleEscapeChars then
          if c2 = '\n' then doubleLoop opts buf cs2
          else doubleLoop opts (buf ++ [c2]) cs2
        else doubleLoop opts (buf ++ [c, c2]) cs2
    else doubleLoop opts (buf ++ [c]) cs
termination_by structural input

end

/-- `splitWord(input, buf, opts)`: the word parser starts in the raw state
with a fresh accumulator (`buf.Reset()`). -/
def splitWord (input : Str) (opts : SplitOptions) : Except SplitError (Str × Str) :=
  rawLoop opts [] input

/-- Go's `unicode.IsSpace`, used by `strings.TrimSpace`: for Latin-1 code
points the eight cases of the `switch`, otherwise the `White_Space` range
table. -/
def goIsSpace (c : Char) : Bool :=
  if c.toNat < 0x100 then
    c.toNat = 0x9 || c.toNat = 0xA || c.toNat = 0xB || c.toNat = 0xC ||
    c.toNat = 0xD || c.toNat = 0x20 || c.toNat = 0x85 || c.toNat = 0xA0
  else
    c.toNat = 0x1680 || (0x2000 ≤ c.toNat && c.toNat ≤ 0x200A) ||
    c.toNat = 0x2028 || c.toNat = 0x2029 || c.toNat = 0x202F ||
    c.toNat = 0x205F || c.toNat = 0x3000

/-- `strings.TrimSpace`: remove leading and trailing code points satisfying
`unicode.IsSpace`. -/
def trimSpace (s : Str) : Str :=
  ((s.dropWhile goIsSpace).reverse.dropWhile goIsSpace).reverse

/-- `strings.TrimRight(s, cutset)`: remove trailing code points in `cutset`. -/
def trimRight (s cutset : Str) : Str :=
  (s.reverse.dropWhile (fun c => decide (c ∈ cutset))).reverse

/-- `strings.TrimLeft(s, cutset)`: remove leading code points in `cutset`. -/
def trimLeft (s cutset : Str) : Str :=
  s.dropWhile (fun c => decide (c ∈ cutset))

/-- The driver loop of `SplitWithOptions` (lines 86-119 of the source),
made structurally recursive on a fuel argument; every recursive call is on a
strictly shorter input, so any fuel exceeding the input length computes the
loop's value.  `sc` is the driver's resolved split set (`splitChars` local),
while the word parser receives `opts` unchanged, exactly as in the source.
The word-handling tail (the `splitWord` call, the append, and the limit
check) appears twice because the escaped-newline look-ahead falls through to
it, as the Go control flow does. -/
def splitLoopF (fuel : Nat) (opts : SplitOptions) (sc : Str) (words : List Str)
    (input : Str) : List Str × Option SplitError :=
  match fuel with
  | 0 => (words, none)
  | fuel + 1 =>
    match input with
    | [] => (words, none)
    | c :: cs =>
      if c ∈ sc then splitLoopF fuel opts sc words cs
      else if c = opts.EscapeChar then
        match cs with
        | [] => (words, some .unterminatedEscape)
        | c2 :: cs2 =>
          if c2 = '\n' then splitLoopF fuel opts sc words cs2
          else
            match splitWord (c :: c2 :: cs2) opts with
            | .error e => (words, some e)
            | .ok (w, rest) =>
              let ws := words ++ [w]
              if opts.Limit = (ws.length : Int) + 1 then
                (if trimSpace rest = [] then ws else ws ++ [trimSpace rest], none)
              else splitLoopF fuel opts sc ws rest
      else
        match splitWord (c :: cs) opts with
        | .error e => (words, some e)
        | .ok (w, rest) =>
          let ws := words ++ [w]
          if opts.Limit = (ws.length : Int) + 1 then
            (if trimSpace rest = [] then ws else ws ++ [trimSpace rest], none)
          else splitLoopF fuel opts sc ws rest
termination_by structural fuel

/-- Lines 106-118 of the source in isolation: run `splitWord` on the
remaining input, propagate an error together with the words accumulated so
far, otherwise append the word and, when the count reaches `Limit - 1`,
append the `TrimSpace`d remainder (when non-empty) and stop. -/
def stepWordF (fuel : Nat) (opts : SplitOptions) (sc : Str) (words : List Str)
    (input : Str) : List Str × Option SplitError :=
  match splitWord input opts with
  | .error e => (words, some e)
  | .ok (w, rest) =>
    let ws := words ++ [w]
    if opts.Limit = (ws.length : Int) + 1 then
      (if trimSpace rest = [] then ws else ws ++ [trimSpace rest], none)
    else splitLoopF fuel opts sc ws rest

/-- `SplitWithOptions(input, opts)` from the source: nil options mean the
defaults; an empty `SplitChars` is replaced by the default set in the local
`splitChars` used by the driver (the word parser still receives the original
options); `Limit` 0 and 1 short-circuit; otherwise the driver loop runs. -/
def SplitWithOptions (input : Str) (optsIn : Option SplitOptions) :
    List Str × Option SplitError :=
  let opts := optsIn.getD DefaultSplitOptions
  let sc := if opts.SplitChars = [] then DefaultSplitChars else opts.SplitChars
  if opts.Limit = 0 then ([], none)
  else if opts.Limit = 1 then
    let t := trimLeft (trimRight input sc) sc
    (if t = [] then [] else [t], none)
  else splitLoopF (input.length + 1) opts sc [] input

/-- `Split(input)` from the source. -/
def Split (input : Str) : List Str × Option SplitError :=
  SplitWithOptions input (some DefaultSplitOptions)

/-- `SplitN(input, n)` from the source. -/
def SplitN (input : Str) (n : Int) : List Str × Option SplitError :=
  SplitWithOptions input (some { DefaultSplitOptions with Limit := n })

/-- The driver's post-word handling for a word whose scan is still pending in
the raw state with accumulator `w` when the extra input `t` begins: finish the
word by scanning `t`, then append it and apply the limit rule exactly as
lines 106-118 of the source do.  This is the continuation that appears when a
successful driver run is extended with further input. -/
def contFrom (opts : SplitOptions) (sc : Str) (ws1 : List Str) (w : Str) (t : Str) :
    List Str × Option SplitError :=
  match rawLoop opts w t with
  | .error e => (ws1, some e)
  | .ok (w2, rest) =>
    let ws := ws1 ++ [w2]
    if opts.Limit = (ws.length : Int) + 1 then
      (if trimSpace rest = [] then ws else ws ++ [trimSpace rest], none)
    else splitLoopF (rest.length + 1) opts sc ws rest

/-- The code points with Go's `White_Space` property, written out: the claim
C3 under examination speaks about which code points the `limit ≥ 2` tail
trimming removes, so the set is spelled out here as an explicit list of
scalar values for comparison with the behaviour of `strings.TrimSpace`. -/
def specWhitespaceCodes : List Nat :=
  [0x9, 0xA, 0xB, 0xC, 0xD, 0x20, 0x85, 0xA0, 0x1680,
   0x2000, 0x2001, 0x2002, 0x2003, 0x2004, 0x2005, 0x2006, 0x2007,
   0x2008, 0x2009, 0x200A, 0x2028, 0x2029, 0x202F, 0x205F, 0x3000]

/-- Trimming both ends by membership of the code point's scalar value in the
explicit list `specWhitespaceCodes`. -/
def specTrimUnicode (s : Str) : Str :=
  ((s.dropWhile (fun c => decide (c.toNat ∈ specWhitespaceCodes))).reverse.dropWhile
    (fun c => decide (c.toNat ∈ specWhitespaceCodes))).reverse

/-- The six ASCII whitespace characters named by claim C3 (space, tab,
newline, carriage return, form feed, vertical tab). -/
def asciiSpaceChars : Str :=
  [Char.ofNat 0x20, Char.ofNat 0x9, Char.ofNat 0xA, Char.ofNat 0xD,
   Char.ofNat 0xC, Char.ofNat 0xB]

/-- Trimming both ends of exactly the six ASCII whitespace characters — the
behaviour claim C3 asserts for the `limit ≥ 2` tail path. -/
def asciiTrim (s : Str) : Str :=
  trimLeft (trimRight s asciiSpaceChars) asciiSpaceChars

/-! ### Step equations for the word-parser states -/

theorem rawLoop_nil (opts : SplitOptions) (buf : Str) :
    rawLoop opts buf [] = .ok (buf, []) := rfl

theorem rawLoop_cons (opts : SplitOptions) (buf : Str) (c : Char) (cs : Str) :
    rawLoop opts buf (c :: cs) =
      if c = opts.SingleChar then singleLoop opts buf cs
      else if c = opts.DoubleChar then doubleLoop opts buf cs
      else if c = opts.EscapeChar then escapeLoop opts buf cs
      else if c ∈ opts.SplitChars then .ok (buf, cs)
      else rawLoop opts (buf ++ [c]) cs := rfl

theorem escapeLoop_nil (opts : SplitOptions) (buf : Str) :
    escapeLoop opts buf [] = .error .unterminatedEscape := rfl

theorem escapeLoop_cons (opts : SplitOptions) (buf : Str) (c : Char) (cs : Str) :
    escapeLoop opts buf (c :: cs) =
      if c = '\n' then rawLoop opts buf cs else rawLoop opts (buf ++ [c]) cs := rfl

theorem singleLoop_nil (opts : SplitOptions) (buf : Str) :
    singleLoop opts buf [] = .error .unterminatedSingleQuote := rfl

theorem singleLoop_cons (opts : SplitOptions) (buf : Str) (c : Char) (cs : Str) :
    singleLoop opts buf (c :: cs) =
      if c = opts.SingleChar then rawLoop opts buf cs
      else singleLoop opts (buf ++ [c]) cs := rfl

theorem doubleLoop_nil (opts : SplitOptions) (buf : Str) :
    doubleLoop opts buf [] = .error .unterminatedDoubleQuote := rfl

theorem doubleLoop_one (opts : SplitOptions) (buf : Str) (c : Char) :
    doubleLoop opts buf [c] =
      if c = opts.DoubleChar then rawLoop opts buf []
      else if c = opts.EscapeChar then .error .unterminatedDoubleQuote
      else doubleLoop opts (buf ++ [c]) [] := rfl

theorem doubleLoop_cons_cons (opts : SplitOptions) (buf : Str) (c c2 : Char) (cs2 : Str) :
    doubleLoop opts buf (c :: c2 :: cs2) =
      if c = opts.DoubleChar then rawLoop opts buf (c2 :: cs2)
      else if c = opts.EscapeChar then
        (if c2 ∈ opts.DoubleEscapeChars then
          (if c2 = '\n' then doubleLoop opts buf cs2
           else doubleLoop opts (buf ++ [c2]) cs2)
         else doubleLoop opts (buf ++ [c, c2]) cs2)
      else doubleLoop opts (buf ++ [c]) (c2 :: cs2) := rfl

theorem splitLoopF_zero (opts : SplitOptions) (sc : Str) (ws : List Str) (input : Str) :
    splitLoopF 0 opts sc ws input = (ws, none) := rfl

theorem splitLoopF_nil (fuel : Nat) (opts : SplitOptions) (sc : Str) (ws : List Str) :
    splitLoopF fuel opts sc ws [] = (ws, none) := by
  cases fuel <;> rfl

theorem splitLoopF_succ (fuel : Nat) (opts : SplitOptions) (sc : Str) (ws : List Str)
    (c : Char) (cs : Str) :
    splitLoopF (fuel + 1) opts sc ws (c :: cs) =
      if c ∈ sc then splitLoopF fuel opts sc ws cs
      else if c = opts.EscapeChar then
        match cs with
        | [] => (ws, some .unterminatedEscape)
        | c2 :: cs2 =>
          if c2 = '\n' then splitLoopF fuel opts sc ws cs2
          else stepWordF fuel opts sc ws (c :: c2 :: cs2)
      else stepWordF fuel opts sc ws (c :: cs) := by
  cases cs <;> rfl

theorem stepWordF_eq (fuel : Nat) (opts : SplitOptions) (sc : Str) (ws : List Str)
    (input : Str) :
    stepWordF fuel opts sc ws input =
      match splitWord input opts with
      | .error e => (ws, some e)
      | .ok (w, rest) =>
        if opts.Limit = ((ws ++ [w]).length : Int) + 1 then
          (if trimSpace rest = [] then ws ++ [w] else ws ++ [w] ++ [trimSpace rest], none)
        else splitLoopF fuel opts sc (ws ++ [w]) rest := rfl

theorem splitLoopF_succ_mem {c : Char} {sc : Str} (fuel : Nat) (opts : SplitOptions)
    (ws : List Str) (cs : Str) (hc : c ∈ sc) :
    splitLoopF (fuel + 1) opts sc ws (c :: cs) = splitLoopF fuel opts sc ws cs := by
  rw [splitLoopF_succ, if_pos hc]

theorem splitLoopF_succ_esc_nil {c : Char} {sc : Str} {opts : SplitOptions}
    (fuel : Nat) (ws : List Str) (hc : c ∉ sc) (he : c = opts.EscapeChar) :
    splitLoopF (fuel + 1) opts sc ws [c] = (ws, some .unterminatedEscape) := by
  rw [splitLoopF_succ, if_neg hc, if_pos he]

theorem splitLoopF_succ_esc_nl {c c2 : Char} {sc : Str} {opts : SplitOptions}
    (fuel : Nat) (ws : List Str) (cs2 : Str) (hc : c ∉ sc) (he : c = opts.EscapeChar)
    (hnl : c2 = '\n') :
    splitLoopF (fuel + 1) opts sc ws (c :: c2 :: cs2) = splitLoopF fuel opts sc ws cs2 := by
  rw [splitLoopF_succ, if_neg hc, if_pos he]
  exact if_pos hnl

theorem splitLoopF_succ_esc_word {c c2 : Char} {sc : Str} {opts : SplitOptions}
    (fuel : Nat) (ws : List Str) (cs2 : Str) (hc : c ∉ sc) (he : c = opts.EscapeChar)
    (hnl : ¬ c2 = '\n') :
    splitLoopF (fuel + 1) opts sc ws (c :: c2 :: cs2) =
      stepWordF fuel opts sc ws (c :: c2 :: cs2) := by
  rw [splitLoopF_succ, if_neg hc, if_pos he]
  exact if_neg hnl

theorem splitLoopF_succ_word {c : Char} {sc : Str} {opts : SplitOptions}
    (fuel : Nat) (ws : List Str) (cs : Str) (hc : c ∉ sc) (he : ¬ c = opts.EscapeChar) :
    splitLoopF (fuel + 1) opts sc ws (c :: cs) = stepWordF fuel opts sc ws (c :: cs) := by
  rw [splitLoopF_succ, if_neg hc, if_neg he]

theorem stepWordF_err {input : Str} {opts : SplitOptions} {e : SplitError}
    (fuel : Nat) (sc : Str) (ws : List Str) (h : splitWord input opts = .error e) :
    stepWordF fuel opts sc ws input = (ws, some e) := by
  rw [stepWordF_eq]
  simp only [h]

theorem stepWordF_ok {input : Str} {opts : SplitOptions} {w rest : Str}
    (fuel : Nat) (sc : Str) (ws : List Str) (h : splitWord input opts = .ok (w, rest))
    (hlim : ¬ opts.Limit = ((ws ++ [w]).length : Int) + 1) :
    stepWordF fuel opts sc ws input = splitLoopF fuel opts sc (ws ++ [w]) rest := by
  rw [stepWordF_eq]
  simp only [h]
  rw [if_neg hlim]

theorem stepWordF_ok_limit {input : Str} {opts : SplitOptions} {w rest : Str}
    (fuel : Nat) (sc : Str) (ws : List Str) (h : splitWord input opts = .ok (w, rest))
    (hlim : opts.Limit = ((ws ++ [w]).length : Int) + 1) :
    stepWordF fuel opts sc ws input =
      (if trimSpace rest = [] then ws ++ [w] else ws ++ [w] ++ [trimSpace rest], none) := by
  rw [stepWordF_eq]
  simp only [h]
  rw [if_pos hlim]

/-! ### The remainder returned by the word parser is a suffix of its input -/

theorem parseSuffix : ∀ (n : Nat) (u : Str), u.length ≤ n →
    ∀ (opts : SplitOptions) (buf w rest : Str),
    (rawLoop opts buf u = .ok (w, rest) → rest <:+ u) ∧
    (escapeLoop opts buf u = .ok (w, rest) → rest <:+ u) ∧
    (singleLoop opts buf u = .ok (w, rest) → rest <:+ u) ∧
    (doubleLoop opts buf u = .ok (w, rest) → rest <:+ u) := by
  intro n
  induction n with
  | zero =>
    intro u hu opts buf w rest
    have hu0 : u = [] := List.length_eq_zero.mp (Nat.le_zero.mp hu)
    subst hu0
    refine ⟨?_, ?_, ?_, ?_⟩ <;> intro h
    · rw [rawLoop_nil] at h
      injection h with h'
      injection h' with h1 h2
      simp [← h2]
    · rw [escapeLoop_nil] at h; cases h
    · rw [singleLoop_nil] at h; cases h
    · rw [doubleLoop_nil] at h; cases h
  | succ n IH =>
    intro u hu opts buf w rest
    match u with
    | [] =>
      refine ⟨?_, ?_, ?_, ?_⟩ <;> intro h
      · rw [rawLoop_nil] at h
        injection h with h'
        injection h' with h1 h2
        simp [← h2]
      · rw [escapeLoop_nil] at h; cases h
      · rw [singleLoop_nil] at h; cases h
      · rw [doubleLoop_nil] at h; cases h
    | c :: cs =>
      have hcs : cs.length ≤ n := by
        simp only [List.length_cons] at hu; omega
      refine ⟨?_, ?_, ?_, ?_⟩ <;> intro h
      · rw [rawLoop_cons] at h
        split_ifs at h with h1 h2 h3 h4
        · exact ((IH cs hcs opts buf w rest).2.2.1 h).trans (List.suffix_cons c cs)
        · exact ((IH cs hcs opts buf w rest).2.2.2 h).trans (List.suffix_cons c cs)
        · exact ((IH cs hcs opts buf w rest).2.1 h).trans (List.suffix_cons c cs)
        · injection h with h'
          injection h' with h5 h6
          rw [← h6]; exact List.suffix_cons c cs
        · exact ((IH cs hcs opts (buf ++ [c]) w rest).1 h).trans (List.suffix_cons c cs)
      · rw [escapeLoop_cons] at h
        split_ifs at h
        · exact ((IH cs hcs opts buf w rest).1 h).trans (List.suffix_cons c cs)
        · exact ((IH cs hcs opts (buf ++ [c]) w rest).1 h).trans (List.suffix_cons c cs)
      · rw [singleLoop_cons] at h
        split_ifs at h
        · exact ((IH cs hcs opts buf w rest).1 h).trans (List.suffix_cons c cs)
        · exact ((IH cs hcs opts (buf ++ [c]) w rest).2.2.1 h).trans (List.suffix_cons c cs)
      · match cs, hcs with
        | [], hcs =>
          rw [doubleLoop_one] at h
          split_ifs at h with h1 h2
          · have := ((IH [] (Nat.zero_le n) opts buf w rest).1 h)
            exact this.trans (List.nil_suffix : [] <:+ [c])
          · have := ((IH [] (Nat.zero_le n) opts (buf ++ [c]) w rest).2.2.2 h)
            exact this.trans (List.nil_suffix : [] <:+ [c])
        | c2 :: cs2, hcs =>
          have hcs2 : cs2.length ≤ n := by
            simp only [List.length_cons] at hcs; omega
          rw [doubleLoop_cons_cons] at h
          split_ifs at h with h1 h2 h3 h4
          · exact ((IH (c2 :: cs2) hcs opts buf w rest).1 h).trans
              (List.suffix_cons c (c2 :: cs2))
          · have := (IH cs2 hcs2 opts buf w rest).2.2.2 h
            exact (this.trans (List.suffix_cons c2 cs2)).trans
              (List.suffix_cons c (c2 :: cs2))
          · have := (IH cs2 hcs2 opts (buf ++ [c2]) w rest).2.2.2 h
            exact (this.trans (List.suffix_cons c2 cs2)).trans
              (List.suffix_cons c (c2 :: cs2))
          · have := (IH cs2 hcs2 opts (buf ++ [c, c2]) w rest).2.2.2 h
            exact (this.trans (List.suffix_cons c2 cs2)).trans
              (List.suffix_cons c (c2 :: cs2))
          · exact ((IH (c2 :: cs2) hcs opts (buf ++ [c]) w rest).2.2.2 h).trans
              (List.suffix_cons c (c2 :: cs2))

theorem rawLoop_suffix {opts : SplitOptions} {buf u w rest : Str}
    (h : rawLoop opts buf u = .ok (w, rest)) : rest <:+ u :=
  (parseSuffix u.length u le_rfl opts buf w rest).1 h

theorem escapeLoop_suffix {opts : SplitOptions} {buf u w rest : Str}
    (h : escapeLoop opts buf u = .ok (w, rest)) : rest <:+ u :=
  (parseSuffix u.length u le_rfl opts buf w rest).2.1 h

theorem singleLoop_suffix {opts : SplitOptions} {buf u w rest : Str}
    (h : singleLoop opts buf u = .ok (w, rest)) : rest <:+ u :=
  (parseSuffix u.length u le_rfl opts buf w rest).2.2.1 h

theorem doubleLoop_suffix {opts : SplitOptions} {buf u w rest : Str}
    (h : doubleLoop opts buf u = .ok (w, rest)) : rest <:+ u :=
  (parseSuffix u.length u le_rfl opts buf w rest).2.2.2 h

/-- The word parser always consumes the first code point of its input: the
remainder is a suffix of the tail. -/
theorem splitWord_cons_suffix {opts : SplitOptions} {c : Char} {cs w rest : Str}
    (h : splitWord (c :: cs) opts = .ok (w, rest)) : rest <:+ cs := by
  unfold splitWord at h
  rw [rawLoop_cons] at h
  split_ifs at h with h1 h2 h3 h4
  · exact singleLoop_suffix h
  · exact doubleLoop_suffix h
  · exact escapeLoop_suffix h
  · injection h with h'
    injection h' with h5 h6
    rw [← h6]
  · exact rawLoop_suffix h

theorem doubleLoop_cons_dq {c : Char} {opts : SplitOptions} (buf cs : Str)
    (h : c = opts.DoubleChar) :
    doubleLoop opts buf (c :: cs) = rawLoop opts buf cs := by
  cases cs
  · rw [doubleLoop_one, if_pos h]
  · rw [doubleLoop_cons_cons, if_pos h]

theorem doubleLoop_cons_plain {c : Char} {opts : SplitOptions} (buf cs : Str)
    (h1 : ¬ c = opts.DoubleChar) (h2 : ¬ c = opts.EscapeChar) :
    doubleLoop opts buf (c :: cs) = doubleLoop opts (buf ++ [c]) cs := by
  cases cs
  · rw [doubleLoop_one, if_neg h1, if_neg h2]
  · rw [doubleLoop_cons_cons, if_neg h1, if_neg h2]

/-! ### Extending the input of the word parser

If parsing `u` succeeds with word `w` and remainder `rest`, then parsing
`u ++ t` either terminates inside `u` the same way (with `t` glued onto the
remainder), or — exactly when the parse of `u` ran off the end of the input
in the raw state — continues scanning `t` in the raw state with the
accumulator holding `w`. -/

theorem parseExt (t : Str) : ∀ (n : Nat) (u : Str), u.length ≤ n →
    ∀ (opts : SplitOptions) (buf w rest : Str),
    (rawLoop opts buf u = .ok (w, rest) →
      rawLoop opts buf (u ++ t) = .ok (w, rest ++ t) ∨
        (rest = [] ∧ rawLoop opts buf (u ++ t) = rawLoop opts w t)) ∧
    (escapeLoop opts buf u = .ok (w, rest) →
      escapeLoop opts buf (u ++ t) = .ok (w, rest ++ t) ∨
        (rest = [] ∧ escapeLoop opts buf (u ++ t) = rawLoop opts w t)) ∧
    (singleLoop opts buf u = .ok (w, rest) →
      singleLoop opts buf (u ++ t) = .ok (w, rest ++ t) ∨
        (rest = [] ∧ singleLoop opts buf (u ++ t) = rawLoop opts w t)) ∧
    (doubleLoop opts buf u = .ok (w, rest) →
      doubleLoop opts buf (u ++ t) = .ok (w, rest ++ t) ∨
        (rest = [] ∧ doubleLoop opts buf (u ++ t) = rawLoop opts w t)) := by
  have base : ∀ (opts : SplitOptions) (buf w rest : Str),
      (rawLoop opts buf [] = .ok (w, rest) →
        rawLoop opts buf ([] ++ t) = .ok (w, rest ++ t) ∨
          (rest = [] ∧ rawLoop opts buf ([] ++ t) = rawLoop opts w t)) ∧
      (escapeLoop opts buf [] = .ok (w, rest) →
        escapeLoop opts buf ([] ++ t) = .ok (w, rest ++ t) ∨
          (rest = [] ∧ escapeLoop opts buf ([] ++ t) = rawLoop opts w t)) ∧
      (singleLoop opts buf [] = .ok (w, rest) →
        singleLoop opts buf ([] ++ t) = .ok (w, rest ++ t) ∨
          (rest = [] ∧ singleLoop opts buf ([] ++ t) = rawLoop opts w t)) ∧
      (doubleLoop opts buf [] = .ok (w, rest) →
        doubleLoop opts buf ([] ++ t) = .ok (w, rest ++ t) ∨
          (rest = [] ∧ doubleLoop opts buf ([] ++ t) = rawLoop opts w t)) := by
    intro opts buf w rest
    refine ⟨?_, ?_, ?_, ?_⟩ <;> intro h
    · rw [rawLoop_nil] at h
      injection h with h'
      injection h' with h1 h2
      refine Or.inr ⟨h2.symm, ?_⟩
      rw [List.nil_append, h1]
    · rw [escapeLoop_nil] at h; cases h
    · rw [singleLoop_nil] at h; cases h
    · rw [doubleLoop_nil] at h; cases h
  intro n
  induction n with
  | zero =>
    intro u hu opts buf w rest
    have hu0 : u = [] := List.length_eq_zero.mp (Nat.le_zero.mp hu)
    subst hu0
    exact base opts buf w rest
  | succ n IH =>
    intro u hu opts buf w rest
    match u with
    | [] => exact base opts buf w rest
    | c :: cs =>
      have hcs : cs.length ≤ n := by
        simp only [List.length_cons] at hu; omega
      refine ⟨?_, ?_, ?_, ?_⟩ <;> intro h
      · rw [rawLoop_cons] at h
        rw [List.cons_append, rawLoop_cons]
        by_cases h1 : c = opts.SingleChar
        · rw [if_pos h1] at h ⊢
          exact (IH cs hcs opts buf w rest).2.2.1 h
        · rw [if_neg h1] at h ⊢
          by_cases h2 : c = opts.DoubleChar
          · rw [if_pos h2] at h ⊢
            exact (IH cs hcs opts buf w rest).2.2.2 h
          · rw [if_neg h2] at h ⊢
            by_cases h3 : c = opts.EscapeChar
            · rw [if_pos h3] at h ⊢
              exact (IH cs hcs opts buf w rest).2.1 h
            · rw [if_neg h3] at h ⊢
              by_cases h4 : c ∈ opts.SplitChars
              · rw [if_pos h4] at h ⊢
                injection h with h'
                injection h' with h5 h6
                rw [← h5, ← h6]
                exact Or.inl rfl
              · rw [if_neg h4] at h ⊢
                exact (IH cs hcs opts (buf ++ [c]) w rest).1 h
      · rw [escapeLoop_cons] at h
        rw [List.cons_append, escapeLoop_cons]
        by_cases h1 : c = '\n'
        · rw [if_pos h1] at h ⊢
          exact (IH cs hcs opts buf w rest).1 h
        · rw [if_neg h1] at h ⊢
          exact (IH cs hcs opts (buf ++ [c]) w rest).1 h
      · rw [singleLoop_cons] at h
        rw [List.cons_append, singleLoop_cons]
        by_cases h1 : c = opts.SingleChar
        · rw [if_pos h1] at h ⊢
          exact (IH cs hcs opts buf w rest).1 h
        · rw [if_neg h1] at h ⊢
          exact (IH cs hcs opts (buf ++ [c]) w rest).2.2.1 h
      · match cs, hcs, h with
        | [], hcs, h =>
          rw [doubleLoop_one] at h
          have hsh : ([c] ++ t) = c :: t := rfl
          rw [hsh]
          by_cases h1 : c = opts.DoubleChar
          · rw [if_pos h1] at h
            rw [rawLoop_nil] at h
            injection h with h'
            injection h' with h5 h6
            refine Or.inr ⟨h6.symm, ?_⟩
            rw [doubleLoop_cons_dq _ _ h1, h5]
          · rw [if_neg h1] at h
            by_cases h2 : c = opts.EscapeChar
            · rw [if_pos h2] at h; cases h
            · rw [if_neg h2] at h
              rw [doubleLoop_nil] at h; cases h
        | c2 :: cs2, hcs, h =>
          have hcs2 : cs2.length ≤ n := by
            simp only [List.length_cons] at hcs; omega
          rw [doubleLoop_cons_cons] at h
          rw [List.cons_append, List.cons_append, doubleLoop_cons_cons]
          by_cases h1 : c = opts.DoubleChar
          · rw [if_pos h1] at h ⊢
            exact (IH (c2 :: cs2) hcs opts buf w rest).1 h
          · rw [if_neg h1] at h ⊢
            by_cases h2 : c = opts.EscapeChar
            · rw [if_pos h2] at h ⊢
              by_cases h3 : c2 ∈ opts.DoubleEscapeChars
              · rw [if_pos h3] at h ⊢
                by_cases h4 : c2 = '\n'
                · rw [if_pos h4] at h ⊢
                  exact (IH cs2 hcs2 opts buf w rest).2.2.2 h
                · rw [if_neg h4] at h ⊢
                  exact (IH cs2 hcs2 opts (buf ++ [c2]) w rest).2.2.2 h
              · rw [if_neg h3] at h ⊢
                exact (IH cs2 hcs2 opts (buf ++ [c, c2]) w rest).2.2.2 h
            · rw [if_neg h2] at h ⊢
              exact (IH (c2 :: cs2) hcs opts (buf ++ [c]) w rest).2.2.2 h

/-- Extension of a successful `splitWord` run by further input. -/
theorem splitWord_ext {opts : SplitOptions} {u w rest : Str} (t : Str)
    (h : splitWord u opts = .ok (w, rest)) :
    splitWord (u ++ t) opts = .ok (w, rest ++ t) ∨
      (rest = [] ∧ splitWord (u ++ t) opts = rawLoop opts w t) :=
  (parseExt t u.length u le_rfl opts [] w rest).1 h

/-! ### The accumulator only grows: a word built from a non-empty accumulator
is non-empty -/

theorem parseNonempty : ∀ (n : Nat) (u : Str), u.length ≤ n →
    ∀ (opts : SplitOptions) (buf w rest : Str), buf ≠ [] →
    (rawLoop opts buf u = .ok (w, rest) → w ≠ []) ∧
    (escapeLoop opts buf u = .ok (w, rest) → w ≠ []) ∧
    (singleLoop opts buf u = .ok (w, rest) → w ≠ []) ∧
    (doubleLoop opts buf u = .ok (w, rest) → w ≠ []) := by
  intro n
  induction n with
  | zero =>
    intro u hu opts buf w rest hbuf
    have hu0 : u = [] := List.length_eq_zero.mp (Nat.le_zero.mp hu)
    subst hu0
    refine ⟨?_, ?_, ?_, ?_⟩ <;> intro h
    · rw [rawLoop_nil] at h
      injection h with h'
      injection h' with h1 h2
      rw [← h1]; exact hbuf
    · rw [escapeLoop_nil] at h; cases h
    · rw [singleLoop_nil] at h; cases h
    · rw [doubleLoop_nil] at h; cases h
  | succ n IH =>
    intro u hu opts buf w rest hbuf
    match u with
    | [] =>
      refine ⟨?_, ?_, ?_, ?_⟩ <;> intro h
      · rw [rawLoop_nil] at h
        injection h with h'
        injection h' with h1 h2
        rw [← h1]; exact hbuf
      · rw [escapeLoop_nil] at h; cases h
      · rw [singleLoop_nil] at h; cases h
      · rw [doubleLoop_nil] at h; cases h
    | c :: cs =>
      have hcs : cs.length ≤ n := by
        simp only [List.length_cons] at hu; omega
      have hbufc : buf ++ [c] ≠ [] := by simp
      refine ⟨?_, ?_, ?_, ?_⟩ <;> intro h
      · rw [rawLoop_cons] at h
        split_ifs at h with h1 h2 h3 h4
        · exact (IH cs hcs opts buf w rest hbuf).2.2.1 h
        · exact (IH cs hcs opts buf w rest hbuf).2.2.2 h
        · exact (IH cs hcs opts buf w rest hbuf).2.1 h
        · injection h with h'
          injection h' with h5 h6
          rw [← h5]; exact hbuf
        · exact (IH cs hcs opts (buf ++ [c]) w rest hbufc).1 h
      · rw [escapeLoop_cons] at h
        split_ifs at h
        · exact (IH cs hcs opts buf w rest hbuf).1 h
        · exact (IH cs hcs opts (buf ++ [c]) w rest hbufc).1 h
      · rw [singleLoop_cons] at h
        split_ifs at h
        · exact (IH cs hcs opts buf w rest hbuf).1 h
        · exact (IH cs hcs opts (buf ++ [c]) w rest hbufc).2.2.1 h
      · match cs, hcs with
        | [], hcs =>
          rw [doubleLoop_one] at h
          split_ifs at h with h1 h2
          · exact (IH [] (Nat.zero_le n) opts buf w rest hbuf).1 h
          · exact (IH [] (Nat.zero_le n) opts (buf ++ [c]) w rest hbufc).2.2.2 h
        | c2 :: cs2, hcs =>
          have hcs2 : cs2.length ≤ n := by
            simp only [List.length_cons] at hcs; omega
          rw [doubleLoop_cons_cons] at h
          split_ifs at h with h1 h2 h3 h4
          · exact (IH (c2 :: cs2) hcs opts buf w rest hbuf).1 h
          · exact (IH cs2 hcs2 opts buf w rest hbuf).2.2.2 h
          · exact (IH cs2 hcs2 opts (buf ++ [c2]) w rest (by simp)).2.2.2 h
          · exact (IH cs2 hcs2 opts (buf ++ [c, c2]) w rest (by simp)).2.2.2 h
          · exact (IH (c2 :: cs2) hcs opts (buf ++ [c]) w rest hbufc).2.2.2 h

/-- A word parsed from input whose first code point is neither the single
quote, the double quote, a split character, nor an escape character followed
by a newline (the only first-code-point shapes the driver ever hands to
`splitWord`, quotes aside) is non-empty. -/
theorem splitWord_nonempty {opts : SplitOptions} {c : Char} {cs w rest : Str}
    (h : splitWord (c :: cs) opts = .ok (w, rest))
    (hq : c ≠ opts.SingleChar) (hd : c ≠ opts.DoubleChar)
    (hs : c ∉ opts.SplitChars)
    (he : c = opts.EscapeChar → cs.head? ≠ some '\n') : w ≠ [] := by
  unfold splitWord at h
  rw [rawLoop_cons, if_neg hq, if_neg hd] at h
  by_cases h3 : c = opts.EscapeChar
  · rw [if_pos h3] at h
    match cs, he, h with
    | [], he, h => rw [escapeLoop_nil] at h; cases h
    | c2 :: cs2, he, h =>
      rw [escapeLoop_cons] at h
      have hc2 : ¬ c2 = '\n' := by
        intro hc
        exact (he h3) (by rw [hc]; rfl)
      rw [if_neg hc2] at h
      exact (parseNonempty cs2.length cs2 le_rfl opts ([] ++ [c2]) w rest (by simp)).1 h
  · rw [if_neg h3, if_neg hs] at h
    exact (parseNonempty cs.length cs le_rfl opts ([] ++ [c]) w rest (by simp)).1 h

/-! ### Fuel irrelevance for the driver loop -/

theorem splitLoopF_fuel : ∀ (f1 : Nat) (input : Str) (f2 : Nat)
    (opts : SplitOptions) (sc : Str) (ws : List Str),
    input.length < f1 → input.length < f2 →
    splitLoopF f1 opts sc ws input = splitLoopF f2 opts sc ws input := by
  intro f1
  induction f1 with
  | zero => intro input f2 opts sc ws h1 h2; omega
  | succ f1 IH =>
    intro input f2 opts sc ws h1 h2
    match input, h1, h2 with
    | [], h1, h2 => rw [splitLoopF_nil, splitLoopF_nil]
    | c :: cs, h1, h2 =>
      match f2, h2 with
      | f2 + 1, h2 =>
        simp only [List.length_cons] at h1 h2
        by_cases hc : c ∈ sc
        · rw [splitLoopF_succ_mem f1 opts ws cs hc, splitLoopF_succ_mem f2 opts ws cs hc]
          exact IH cs f2 opts sc ws (by omega) (by omega)
        · by_cases hesc : c = opts.EscapeChar
          · match cs, h1, h2 with
            | [], h1, h2 =>
              rw [splitLoopF_succ_esc_nil f1 ws hc hesc,
                splitLoopF_succ_esc_nil f2 ws hc hesc]
            | c2 :: cs2, h1, h2 =>
              simp only [List.length_cons] at h1 h2
              by_cases hnl : c2 = '\n'
              · rw [splitLoopF_succ_esc_nl f1 ws cs2 hc hesc hnl,
                  splitLoopF_succ_esc_nl f2 ws cs2 hc hesc hnl]
                exact IH cs2 f2 opts sc ws (by omega) (by omega)
              · rw [splitLoopF_succ_esc_word f1 ws cs2 hc hesc hnl,
                  splitLoopF_succ_esc_word f2 ws cs2 hc hesc hnl]
                match hsw : splitWord (c :: c2 :: cs2) opts with
                | .error e =>
                  rw [stepWordF_err f1 sc ws hsw, stepWordF_err f2 sc ws hsw]
                | .ok (w, rest) =>
                  have hrest : rest.length ≤ cs2.length + 1 := by
                    have := (splitWord_cons_suffix hsw).length_le
                    simpa using this
                  by_cases hlim : opts.Limit = ((ws ++ [w]).length : Int) + 1
                  · rw [stepWordF_ok_limit f1 sc ws hsw hlim,
                      stepWordF_ok_limit f2 sc ws hsw hlim]
                  · rw [stepWordF_ok f1 sc ws hsw hlim, stepWordF_ok f2 sc ws hsw hlim]
                    exact IH rest f2 opts sc (ws ++ [w]) (by omega) (by omega)
          · rw [splitLoopF_succ_word f1 ws cs hc hesc, splitLoopF_succ_word f2 ws cs hc hesc]
            match hsw : splitWord (c :: cs) opts with
            | .error e =>
              rw [stepWordF_err f1 sc ws hsw, stepWordF_err f2 sc ws hsw]
            | .ok (w, rest) =>
              have hrest : rest.length ≤ cs.length :=
                (splitWord_cons_suffix hsw).length_le
              by_cases hlim : opts.Limit = ((ws ++ [w]).length : Int) + 1
              · rw [stepWordF_ok_limit f1 sc ws hsw hlim,
                  stepWordF_ok_limit f2 sc ws hsw hlim]
              · rw [stepWordF_ok f1 sc ws hsw hlim, stepWordF_ok f2 sc ws hsw hlim]
                exact IH rest f2 opts sc (ws ++ [w]) (by omega) (by omega)

/-! ### Single-quote scanning facts -/

/-- With no closing quote anywhere in the remaining input, the single-quoted
state fails. -/
theorem singleLoop_no_quote {opts : SplitOptions} :
    ∀ (u : Str), opts.SingleChar ∉ u → ∀ (buf : Str),
    singleLoop opts buf u = .error .unterminatedSingleQuote := by
  intro u
  induction u with
  | nil => intro _ buf; rw [singleLoop_nil]
  | cons c cs IH =>
    intro h buf
    have hc : ¬ c = opts.SingleChar := by
      intro hc; exact h (hc ▸ List.mem_cons_self c cs)
    rw [singleLoop_cons, if_neg hc]
    exact IH (fun hm => h (List.mem_cons_of_mem c hm)) (buf ++ [c])

/-- The single-quoted state copies the body verbatim up to the first closing
quote and returns to the raw state. -/
theorem singleLoop_thru {opts : SplitOptions} :
    ∀ (b : Str), opts.SingleChar ∉ b → ∀ (buf rest : Str),
    singleLoop opts buf (b ++ opts.SingleChar :: rest) = rawLoop opts (buf ++ b) rest := by
  intro b
  induction b with
  | nil =>
    intro _ buf rest
    rw [List.nil_append, singleLoop_cons, if_pos rfl, List.append_nil]
  | cons c bs IH =>
    intro h buf rest
    have hc : ¬ c = opts.SingleChar := by
      intro hc; exact h (hc ▸ List.mem_cons_self c bs)
    rw [List.cons_append, singleLoop_cons, if_neg hc,
      IH (fun hm => h (List.mem_cons_of_mem c hm)) (buf ++ [c]) rest,
      List.append_assoc]
    rfl

/-! ### Driver-level building blocks -/

/-- A run of resolved split characters at the head of the remaining input is
skipped entirely by the driver. -/
theorem splitLoopF_skip_run {opts : SplitOptions} {sc : Str} :
    ∀ (r : Str), (∀ c ∈ r, c ∈ sc) →
    ∀ (t : Str) (fuel : Nat) (ws : List Str), (r ++ t).length < fuel →
    splitLoopF fuel opts sc ws (r ++ t) = splitLoopF (t.length + 1) opts sc ws t := by
  intro r
  induction r with
  | nil =>
    intro _ t fuel ws hf
    rw [List.nil_append] at hf ⊢
    exact splitLoopF_fuel fuel t (t.length + 1) opts sc ws hf (Nat.lt_succ_self _)
  | cons c rr IH =>
    intro hr t fuel ws hf
    match fuel, hf with
    | fuel + 1, hf =>
      rw [List.cons_append,
        splitLoopF_succ_mem fuel opts ws (rr ++ t) (hr c (List.mem_cons_self c rr))]
      refine IH (fun x hx => hr x (List.mem_cons_of_mem c hx)) t fuel ws ?_
      simp only [List.cons_append, List.length_cons] at hf
      omega

/-- Extending a successful driver run by extra input `t`: either the run of
`s` ended at a word boundary (the driver then continues on `t` with the words
of `s` accumulated), or the final word of `s` was still being scanned when
the end of `s` was reached, and the run continues via `contFrom` on `t`.
Stated for configurations with a negative (unlimited) `Limit`. -/
theorem splitLoopF_ext {opts : SplitOptions} {sc : Str} (hL : opts.Limit < 0) :
    ∀ (fuel : Nat) (s : Str), s.length < fuel →
    ∀ (t : Str) (f2 : Nat) (ws out : List Str), (s ++ t).length < f2 →
    splitLoopF fuel opts sc ws s = (out, none) →
    splitLoopF f2 opts sc ws (s ++ t) = splitLoopF (t.length + 1) opts sc out t ∨
      ∃ ws1 w, out = ws1 ++ [w] ∧
        splitLoopF f2 opts sc ws (s ++ t) = contFrom opts sc ws1 w t := by
  have hlimN : ∀ (ws : List Str) (w : Str), ¬ opts.Limit = ((ws ++ [w]).length : Int) + 1 := by
    intro ws w
    have : ((ws ++ [w]).length : Int) ≥ 0 := Int.natCast_nonneg _
    omega
  intro fuel
  induction fuel with
  | zero => intro s hs; omega
  | succ fuel IH =>
    intro s hs t f2 ws out hf2 hrun
    match s, hs, hf2, hrun with
    | [], hs, hf2, hrun =>
      rw [splitLoopF_nil] at hrun
      injection hrun with hout _
      rw [List.nil_append] at hf2 ⊢
      refine Or.inl ?_
      rw [hout]
      exact splitLoopF_fuel f2 t (t.length + 1) opts sc out hf2 (Nat.lt_succ_self _)
    | c :: cs, hs, hf2, hrun =>
      simp only [List.length_cons] at hs
      match f2, hf2 with
      | f2 + 1, hf2 =>
        simp only [List.cons_append, List.length_cons, List.length_append] at hf2
        rw [List.cons_append]
        by_cases hc : c ∈ sc
        · rw [splitLoopF_succ_mem fuel opts ws cs hc] at hrun
          rw [splitLoopF_succ_mem f2 opts ws (cs ++ t) hc]
          refine IH cs (by omega) t f2 ws out ?_ hrun
          simp only [List.length_append]; omega
        · by_cases hesc : c = opts.EscapeChar
          · match cs, hs, hf2, hrun with
            | [], hs, hf2, hrun =>
              rw [splitLoopF_succ_esc_nil fuel ws hc hesc] at hrun
              injection hrun with _ hbad
              cases hbad
            | c2 :: cs2, hs, hf2, hrun =>
              simp only [List.length_cons] at hs hf2
              rw [List.cons_append]
              by_cases hnl : c2 = '\n'
              · rw [splitLoopF_succ_esc_nl fuel ws cs2 hc hesc hnl] at hrun
                rw [splitLoopF_succ_esc_nl f2 ws (cs2 ++ t) hc hesc hnl]
                refine IH cs2 (by omega) t f2 ws out ?_ hrun
                simp only [List.length_append]; omega
              · rw [splitLoopF_succ_esc_word fuel ws cs2 hc hesc hnl] at hrun
                rw [splitLoopF_succ_esc_word f2 ws (cs2 ++ t) hc hesc hnl]
                match hsw : splitWord (c :: c2 :: cs2) opts with
                | .error e =>
                  rw [stepWordF_err fuel sc ws hsw] at hrun
                  injection hrun with _ hbad
                  cases hbad
                | .ok (w, rest) =>
                  rw [stepWordF_ok fuel sc ws hsw (hlimN ws w)] at hrun
                  have hrest : rest.length ≤ cs2.length + 1 := by
                    have := (splitWord_cons_suffix hsw).length_le
                    simpa using this
                  have hext := splitWord_ext t hsw
                  rcases hext with hA | ⟨hrnil, hB⟩
                  · have hA' : splitWord (c :: c2 :: (cs2 ++ t)) opts = .ok (w, rest ++ t) := by
                      simpa using hA
                    rw [stepWordF_ok f2 sc ws hA' (hlimN ws w)]
                    refine IH rest (by omega) t f2 (ws ++ [w]) out ?_ hrun
                    simp only [List.length_append]; omega
                  · subst hrnil
                    rw [splitLoopF_nil] at hrun
                    injection hrun with hout _
                    have hB' : splitWord (c :: c2 :: (cs2 ++ t)) opts = rawLoop opts w t := by
                      simpa using hB
                    refine Or.inr ⟨ws, w, hout.symm, ?_⟩
                    rw [stepWordF_eq, hB']
                    unfold contFrom
                    match hr : rawLoop opts w t with
                    | .error e => rfl
                    | .ok (w2, rest2) =>
                      simp only
                      rw [if_neg (hlimN ws w2), if_neg (hlimN ws w2)]
                      have hr2 : rest2.length ≤ t.length := (rawLoop_suffix hr).length_le
                      exact splitLoopF_fuel f2 rest2 (rest2.length + 1) opts sc (ws ++ [w2])
                        (by omega) (Nat.lt_succ_self _)
          · rw [splitLoopF_succ_word fuel ws cs hc hesc] at hrun
            rw [splitLoopF_succ_word f2 ws (cs ++ t) hc hesc]
            match hsw : splitWord (c :: cs) opts with
            | .error e =>
              rw [stepWordF_err fuel sc ws hsw] at hrun
              injection hrun with _ hbad
              cases hbad
            | .ok (w, rest) =>
              rw [stepWordF_ok fuel sc ws hsw (hlimN ws w)] at hrun
              have hrest : rest.length ≤ cs.length := (splitWord_cons_suffix hsw).length_le
              have hext := splitWord_ext t hsw
              rcases hext with hA | ⟨hrnil, hB⟩
              · have hA' : splitWord (c :: (cs ++ t)) opts = .ok (w, rest ++ t) := by
                  simpa using hA
                rw [stepWordF_ok f2 sc ws hA' (hlimN ws w)]
                refine IH rest (by omega) t f2 (ws ++ [w]) out ?_ hrun
                simp only [List.length_append]; omega
              · subst hrnil
                rw [splitLoopF_nil] at hrun
                injection hrun with hout _
                have hB' : splitWord (c :: (cs ++ t)) opts = rawLoop opts w t := by
                  simpa using hB
                refine Or.inr ⟨ws, w, hout.symm, ?_⟩
                rw [stepWordF_eq, hB']
                unfold contFrom
                match hr : rawLoop opts w t with
                | .error e => rfl
                | .ok (w2, rest2) =>
                  simp only
                  rw [if_neg (hlimN ws w2), if_neg (hlimN ws w2)]
                  have hr2 : rest2.length ≤ t.length := (rawLoop_suffix hr).length_le
                  exact splitLoopF_fuel f2 rest2 (rest2.length + 1) opts sc (ws ++ [w2])
                    (by omega) (Nat.lt_succ_self _)

/-! ### Characterisation of the whitespace trimming -/

theorem goIsSpace_eq_spec : ∀ c : Char, goIsSpace c = decide (c.toNat ∈ specWhitespaceCodes) := by
  intro c
  apply Bool.eq_iff_iff.mpr
  rw [decide_eq_true_eq]
  unfold goIsSpace specWhitespaceCodes
  by_cases hlt : c.toNat < 0x100
  · rw [if_pos hlt]
    simp only [Bool.or_eq_true, decide_eq_true_eq, List.mem_cons, List.not_mem_nil, or_false]
    omega
  · rw [if_neg hlt]
    simp only [Bool.or_eq_true, Bool.and_eq_true, decide_eq_true_eq, List.mem_cons,
      List.not_mem_nil, or_false]
    omega

theorem trimSpace_eq_spec : ∀ s : Str, trimSpace s = specTrimUnicode s := by
  have hf : goIsSpace = fun c => decide (c.toNat ∈ specWhitespaceCodes) :=
    funext goIsSpace_eq_spec
  intro s
  unfold trimSpace specTrimUnicode
  rw [hf]

/-! ### Unfolding the public entry points -/

theorem Split_eq (input : Str) :
    Split input = splitLoopF (input.length + 1) DefaultSplitOptions DefaultSplitChars [] input :=
  rfl

theorem SplitN_eq_of_ne {n : Int} (input : Str) (h0 : ¬ n = 0) (h1 : ¬ n = 1) :
    SplitN input n = splitLoopF (input.length + 1) { DefaultSplitOptions with Limit := n }
      DefaultSplitChars [] input := by
  unfold SplitN SplitWithOptions
  simp only [Option.getD_some]
  rw [show DefaultSplitOptions.SplitChars = DefaultSplitChars from rfl,
    if_neg (show ¬ DefaultSplitChars = ([] : Str) by decide),
    if_neg h0, if_neg h1]

/-! ### Facts about the default configuration -/

theorem default_sep_not_special : ∀ c ∈ DefaultSplitChars,
    ¬ c = DefaultSplitOptions.SingleChar ∧ ¬ c = DefaultSplitOptions.DoubleChar ∧
    ¬ c = DefaultSplitOptions.EscapeChar := by decide

theorem default_limit_neg : DefaultSplitOptions.Limit < 0 := by decide

/-! ### Failure of an unterminated single-quoted span -/

/-- Scanning in the raw state from a single-quote code point whose body never
closes fails with the unterminated-single-quote error, whatever the
accumulator holds. -/
theorem rawLoop_quote_fail {b : Str} (hb : DefaultSingleChar ∉ b) (w : Str) :
    rawLoop DefaultSplitOptions w (DefaultSingleChar :: b) =
      .error .unterminatedSingleQuote := by
  rw [rawLoop_cons,
    if_pos (show DefaultSingleChar = DefaultSplitOptions.SingleChar from rfl)]
  exact singleLoop_no_quote b hb w

/-- The driver, handed input beginning with an unterminated single-quoted
span, stops with the unterminated-single-quote error and the words it had
already accumulated. -/
theorem splitLoopF_quote_fail {b : Str} (hb : DefaultSingleChar ∉ b) :
    ∀ (fuel : Nat) (ws : List Str), 0 < fuel →
    splitLoopF fuel DefaultSplitOptions DefaultSplitChars ws (DefaultSingleChar :: b) =
      (ws, some .unterminatedSingleQuote) := by
  intro fuel ws h0
  match fuel, h0 with
  | fuel + 1, _ =>
    rw [splitLoopF_succ_word fuel ws b (by decide) (by decide)]
    have hsw : splitWord (DefaultSingleChar :: b) DefaultSplitOptions =
        .error .unterminatedSingleQuote := by
      unfold splitWord
      exact rawLoop_quote_fail hb []
    exact stepWordF_err fuel DefaultSplitChars ws hsw

/-! ### Partial words are preserved: the first component extends the
accumulated words -/

theorem splitLoopF_words_extend : ∀ (fuel : Nat) (input : Str) (opts : SplitOptions)
    (sc : Str) (ws : List Str),
    ∃ tail, (splitLoopF fuel opts sc ws input).1 = ws ++ tail := by
  intro fuel
  induction fuel with
  | zero => intro input opts sc ws; exact ⟨[], by rw [splitLoopF_zero, List.append_nil]⟩
  | succ fuel IH =>
    intro input opts sc ws
    match input with
    | [] => exact ⟨[], by rw [splitLoopF_nil, List.append_nil]⟩
    | c :: cs =>
      by_cases hc : c ∈ sc
      · rw [splitLoopF_succ_mem fuel opts ws cs hc]
        exact IH cs opts sc ws
      · by_cases hesc : c = opts.EscapeChar
        · match cs with
          | [] =>
            rw [splitLoopF_succ_esc_nil fuel ws hc hesc]
            exact ⟨[], by rw [List.append_nil]⟩
          | c2 :: cs2 =>
            by_cases hnl : c2 = '\n'
            · rw [splitLoopF_succ_esc_nl fuel ws cs2 hc hesc hnl]
              exact IH cs2 opts sc ws
            · rw [splitLoopF_succ_esc_word fuel ws cs2 hc hesc hnl]
              match hsw : splitWord (c :: c2 :: cs2) opts with
              | .error e =>
                rw [stepWordF_err fuel sc ws hsw]
                exact ⟨[], by rw [List.append_nil]⟩
              | .ok (w, rest) =>
                by_cases hlim : opts.Limit = ((ws ++ [w]).length : Int) + 1
                · rw [stepWordF_ok_limit fuel sc ws hsw hlim]
                  by_cases ht : trimSpace rest = []
                  · exact ⟨[w], by rw [if_pos ht]⟩
                  · exact ⟨[w, trimSpace rest], by rw [if_neg ht]; simp⟩
                · rw [stepWordF_ok fuel sc ws hsw hlim]
                  obtain ⟨tail, htail⟩ := IH rest opts sc (ws ++ [w])
                  exact ⟨[w] ++ tail, by rw [htail, List.append_assoc]⟩
        · rw [splitLoopF_succ_word fuel ws cs hc hesc]
          match hsw : splitWord (c :: cs) opts with
          | .error e =>
            rw [stepWordF_err fuel sc ws hsw]
            exact ⟨[], by rw [List.append_nil]⟩
          | .ok (w, rest) =>
            by_cases hlim : opts.Limit = ((ws ++ [w]).length : Int) + 1
            · rw [stepWordF_ok_limit fuel sc ws hsw hlim]
              by_cases ht : trimSpace rest = []
              · exact ⟨[w], by rw [if_pos ht]⟩
              · exact ⟨[w, trimSpace rest], by rw [if_neg ht]; simp⟩
            · rw [stepWordF_ok fuel sc ws hsw hlim]
              obtain ⟨tail, htail⟩ := IH rest opts sc (ws ++ [w])
              exact ⟨[w] ++ tail, by rw [htail, List.append_assoc]⟩

/-! ### Driver invariant: all produced words are non-empty when the input
contains no quote characters -/

theorem splitLoopF_nonempty : ∀ (fuel : Nat) (input : Str) (opts : SplitOptions) (sc : Str)
    (ws : List Str),
    (∀ c ∈ opts.SplitChars, c ∈ sc) →
    opts.SingleChar ∉ input → opts.DoubleChar ∉ input →
    (∀ w ∈ ws, w ≠ []) →
    ∀ w ∈ (splitLoopF fuel opts sc ws input).1, w ≠ [] := by
  intro fuel
  induction fuel with
  | zero =>
    intro input opts sc ws _ _ _ hws
    rw [splitLoopF_zero]; exact hws
  | succ fuel IH =>
    intro input opts sc ws hsub hq hd hws
    match input with
    | [] => rw [splitLoopF_nil]; exact hws
    | c :: cs =>
      have hq' : opts.SingleChar ∉ cs := fun hm => hq (List.mem_cons_of_mem c hm)
      have hd' : opts.DoubleChar ∉ cs := fun hm => hd (List.mem_cons_of_mem c hm)
      have hcq : ¬ c = opts.SingleChar := fun heq => hq (heq ▸ List.mem_cons_self c cs)
      have hcd : ¬ c = opts.DoubleChar := fun heq => hd (heq ▸ List.mem_cons_self c cs)
      by_cases hc : c ∈ sc
      · rw [splitLoopF_succ_mem fuel opts ws cs hc]
        exact IH cs opts sc ws hsub hq' hd' hws
      · have hcs : c ∉ opts.SplitChars := fun hm => hc (hsub c hm)
        by_cases hesc : c = opts.EscapeChar
        · match cs, hq', hd', hq, hd with
          | [], hq', hd', hq, hd =>
            rw [splitLoopF_succ_esc_nil fuel ws hc hesc]; exact hws
          | c2 :: cs2, hq', hd', hq, hd =>
            by_cases hnl : c2 = '\n'
            · rw [splitLoopF_succ_esc_nl fuel ws cs2 hc hesc hnl]
              exact IH cs2 opts sc ws hsub (fun hm => hq' (List.mem_cons_of_mem c2 hm))
                (fun hm => hd' (List.mem_cons_of_mem c2 hm)) hws
            · rw [splitLoopF_succ_esc_word fuel ws cs2 hc hesc hnl]
              match hsw : splitWord (c :: c2 :: cs2) opts with
              | .error e => rw [stepWordF_err fuel sc ws hsw]; exact hws
              | .ok (w, rest) =>
                have hw : w ≠ [] := by
                  refine splitWord_nonempty hsw hcq hcd hcs ?_
                  intro _ habs
                  injection habs with habs2
                  exact hnl habs2
                have hoall : ∀ x ∈ ws ++ [w], x ≠ [] := by
                  intro x hx
                  rcases List.mem_append.mp hx with hx | hx
                  · exact hws x hx
                  · rw [List.mem_singleton.mp hx]; exact hw
                by_cases hlim : opts.Limit = ((ws ++ [w]).length : Int) + 1
                · rw [stepWordF_ok_limit fuel sc ws hsw hlim]
                  by_cases ht : trimSpace rest = []
                  · rw [if_pos ht]; exact hoall
                  · rw [if_neg ht]
                    intro x hx
                    rcases List.mem_append.mp hx with hx | hx
                    · exact hoall x hx
                    · rw [List.mem_singleton.mp hx]; exact ht
                · rw [stepWordF_ok fuel sc ws hsw hlim]
                  refine IH rest opts sc (ws ++ [w]) hsub ?_ ?_ hoall
                  · exact fun hm =>
                      hq (List.mem_cons_of_mem c ((splitWord_cons_suffix hsw).subset hm))
                  · exact fun hm =>
                      hd (List.mem_cons_of_mem c ((splitWord_cons_suffix hsw).subset hm))
        · rw [splitLoopF_succ_word fuel ws cs hc hesc]
          match hsw : splitWord (c :: cs) opts with
          | .error e => rw [stepWordF_err fuel sc ws hsw]; exact hws
          | .ok (w, rest) =>
            have hw : w ≠ [] :=
              splitWord_nonempty hsw hcq hcd hcs (fun habs => absurd habs hesc)
            have hoall : ∀ x ∈ ws ++ [w], x ≠ [] := by
              intro x hx
              rcases List.mem_append.mp hx with hx | hx
              · exact hws x hx
              · rw [List.mem_singleton.mp hx]; exact hw
            by_cases hlim : opts.Limit = ((ws ++ [w]).length : Int) + 1
            · rw [stepWordF_ok_limit fuel sc ws hsw hlim]
              by_cases ht : trimSpace rest = []
              · rw [if_pos ht]; exact hoall
              · rw [if_neg ht]
                intro x hx
                rcases List.mem_append.mp hx with hx | hx
                · exact hoall x hx
                · rw [List.mem_singleton.mp hx]; exact ht
            · rw [stepWordF_ok fuel sc ws hsw hlim]
              refine IH rest opts sc (ws ++ [w]) hsub ?_ ?_ hoall
              · exact fun hm => hq' ((splitWord_cons_suffix hsw).subset hm)
              · exact fun hm => hd' ((splitWord_cons_suffix hsw).subset hm)

/-! ### Driver invariant: the word count never exceeds a non-negative limit -/

theorem splitLoopF_length_le : ∀ (fuel : Nat) (input : Str) (opts : SplitOptions) (sc : Str)
    (ws : List Str), (ws.length : Int) + 2 ≤ opts.Limit →
    ((splitLoopF fuel opts sc ws input).1.length : Int) ≤ opts.Limit := by
  intro fuel
  induction fuel with
  | zero =>
    intro input opts sc ws hle
    rw [splitLoopF_zero]
    exact (by omega : ((ws.length : Int)) ≤ opts.Limit)
  | succ fuel IH =>
    intro input opts sc ws hle
    match input with
    | [] =>
      rw [splitLoopF_nil]
      exact (by omega : ((ws.length : Int)) ≤ opts.Limit)
    | c :: cs =>
      by_cases hc : c ∈ sc
      · rw [splitLoopF_succ_mem fuel opts ws cs hc]
        exact IH cs opts sc ws hle
      · by_cases hesc : c = opts.EscapeChar
        · match cs with
          | [] =>
            rw [splitLoopF_succ_esc_nil fuel ws hc hesc]
            exact (by omega : ((ws.length : Int)) ≤ opts.Limit)
          | c2 :: cs2 =>
            by_cases hnl : c2 = '\n'
            · rw [splitLoopF_succ_esc_nl fuel ws cs2 hc hesc hnl]
              exact IH cs2 opts sc ws hle
            · rw [splitLoopF_succ_esc_word fuel ws cs2 hc hesc hnl]
              match hsw : splitWord (c :: c2 :: cs2) opts with
              | .error e =>
                rw [stepWordF_err fuel sc ws hsw]
                exact (by omega : ((ws.length : Int)) ≤ opts.Limit)
              | .ok (w, rest) =>
                have hlen : (((ws ++ [w]).length : Int)) = (ws.length : Int) + 1 := by
                  simp [List.length_append]
                by_cases hlim : opts.Limit = ((ws ++ [w]).length : Int) + 1
                · rw [stepWordF_ok_limit fuel sc ws hsw hlim]
                  by_cases ht : trimSpace rest = []
                  · rw [if_pos ht]
                    exact (by omega : (((ws ++ [w]).length : Int)) ≤ opts.Limit)
                  · rw [if_neg ht]
                    have hlen2 : (((ws ++ [w] ++ [trimSpace rest]).length : Int)) =
                        (ws.length : Int) + 2 := by
                      simp [List.length_append]
                    exact (by omega :
                      (((ws ++ [w] ++ [trimSpace rest]).length : Int)) ≤ opts.Limit)
                · rw [stepWordF_ok fuel sc ws hsw hlim]
                  refine IH rest opts sc (ws ++ [w]) ?_
                  omega
        · rw [splitLoopF_succ_word fuel ws cs hc hesc]
          match hsw : splitWord (c :: cs) opts with
          | .error e =>
            rw [stepWordF_err fuel sc ws hsw]
            exact (by omega : ((ws.length : Int)) ≤ opts.Limit)
          | .ok (w, rest) =>
            have hlen : (((ws ++ [w]).length : Int)) = (ws.length : Int) + 1 := by
              simp [List.length_append]
            by_cases hlim : opts.Limit = ((ws ++ [w]).length : Int) + 1
            · rw [stepWordF_ok_limit fuel sc ws hsw hlim]
              by_cases ht : trimSpace rest = []
              · rw [if_pos ht]
                exact (by omega : (((ws ++ [w]).length : Int)) ≤ opts.Limit)
              · rw [if_neg ht]
                have hlen2 : (((ws ++ [w] ++ [trimSpace rest]).length : Int)) =
                    (ws.length : Int) + 2 := by
                  simp [List.length_append]
                exact (by omega :
                  (((ws ++ [w] ++ [trimSpace rest]).length : Int)) ≤ opts.Limit)
            · rw [stepWordF_ok fuel sc ws hsw hlim]
              refine IH rest opts sc (ws ++ [w]) ?_
              omega

/-! ### The word parser only consults the configuration through the tests the
scan performs; configurations agreeing on those tests give equal parses -/

theorem parseCongr {o1 o2 : SplitOptions}
    (hS : o1.SingleChar = o2.SingleChar) (hD : o1.DoubleChar = o2.DoubleChar)
    (hDE : o1.DoubleEscapeChars = o2.DoubleEscapeChars) :
    ∀ (n : Nat) (u : Str), u.length ≤ n →
    (∀ c ∈ u, (c = o1.EscapeChar ↔ c = o2.EscapeChar)) →
    (∀ c ∈ u, (c ∈ o1.SplitChars ↔ c ∈ o2.SplitChars)) →
    ∀ (buf : Str),
    rawLoop o1 buf u = rawLoop o2 buf u ∧
    escapeLoop o1 buf u = escapeLoop o2 buf u ∧
    singleLoop o1 buf u = singleLoop o2 buf u ∧
    doubleLoop o1 buf u = doubleLoop o2 buf u := by
  intro n
  induction n with
  | zero =>
    intro u hu _ _ buf
    have hu0 : u = [] := List.length_eq_zero.mp (Nat.le_zero.mp hu)
    subst hu0
    exact ⟨rfl, rfl, rfl, rfl⟩
  | succ n IH =>
    intro u hu hE hSp buf
    match u with
    | [] => exact ⟨rfl, rfl, rfl, rfl⟩
    | c :: cs =>
      have hcs : cs.length ≤ n := by
        simp only [List.length_cons] at hu; omega
      have hE' : ∀ x ∈ cs, (x = o1.EscapeChar ↔ x = o2.EscapeChar) :=
        fun x hx => hE x (List.mem_cons_of_mem c hx)
      have hSp' : ∀ x ∈ cs, (x ∈ o1.SplitChars ↔ x ∈ o2.SplitChars) :=
        fun x hx => hSp x (List.mem_cons_of_mem c hx)
      have hEc := hE c (List.mem_cons_self c cs)
      have hSpc := hSp c (List.mem_cons_self c cs)
      refine ⟨?_, ?_, ?_, ?_⟩
      · rw [rawLoop_cons, rawLoop_cons]
        by_cases h1 : c = o1.SingleChar
        · rw [if_pos h1, if_pos (hS ▸ h1)]
          exact (IH cs hcs hE' hSp' buf).2.2.1
        · rw [if_neg h1, if_neg (fun hx => h1 (hS ▸ hx))]
          by_cases h2 : c = o1.DoubleChar
          · rw [if_pos h2, if_pos (hD ▸ h2)]
            exact (IH cs hcs hE' hSp' buf).2.2.2
          · rw [if_neg h2, if_neg (fun hx => h2 (hD ▸ hx))]
            by_cases h3 : c = o1.EscapeChar
            · rw [if_pos h3, if_pos (hEc.mp h3)]
              exact (IH cs hcs hE' hSp' buf).2.1
            · rw [if_neg h3, if_neg (fun hx => h3 (hEc.mpr hx))]
              by_cases h4 : c ∈ o1.SplitChars
              · rw [if_pos h4, if_pos (hSpc.mp h4)]
              · rw [if_neg h4, if_neg (fun hx => h4 (hSpc.mpr hx))]
                exact (IH cs hcs hE' hSp' (buf ++ [c])).1
      · rw [escapeLoop_cons, escapeLoop_cons]
        by_cases h1 : c = '\n'
        · rw [if_pos h1, if_pos h1]
          exact (IH cs hcs hE' hSp' buf).1
        · rw [if_neg h1, if_neg h1]
          exact (IH cs hcs hE' hSp' (buf ++ [c])).1
      · rw [singleLoop_cons, singleLoop_cons]
        by_cases h1 : c = o1.SingleChar
        · rw [if_pos h1, if_pos (hS ▸ h1)]
          exact (IH cs hcs hE' hSp' buf).1
        · rw [if_neg h1, if_neg (fun hx => h1 (hS ▸ hx))]
          exact (IH cs hcs hE' hSp' (buf ++ [c])).2.2.1
      · match cs, hcs, hE', hSp' with
        | [], hcs, hE', hSp' =>
          rw [doubleLoop_one, doubleLoop_one]
          by_cases h1 : c = o1.DoubleChar
          · rw [if_pos h1, if_pos (hD ▸ h1)]
            exact (IH [] (Nat.zero_le n) (by intro x hx; cases hx)
              (by intro x hx; cases hx) buf).1
          · rw [if_neg h1, if_neg (fun hx => h1 (hD ▸ hx))]
            by_cases h2 : c = o1.EscapeChar
            · rw [if_pos h2, if_pos (hEc.mp h2)]
            · rw [if_neg h2, if_neg (fun hx => h2 (hEc.mpr hx))]
              exact (IH [] (Nat.zero_le n) (by intro x hx; cases hx)
                (by intro x hx; cases hx) (buf ++ [c])).2.2.2
        | c2 :: cs2, hcs, hE', hSp' =>
          have hcs2 : cs2.length ≤ n := by
            simp only [List.length_cons] at hcs; omega
          have hE2 : ∀ x ∈ cs2, (x = o1.EscapeChar ↔ x = o2.EscapeChar) :=
            fun x hx => hE' x (List.mem_cons_of_mem c2 hx)
          have hSp2 : ∀ x ∈ cs2, (x ∈ o1.SplitChars ↔ x ∈ o2.SplitChars) :=
            fun x hx => hSp' x (List.mem_cons_of_mem c2 hx)
          rw [doubleLoop_cons_cons, doubleLoop_cons_cons]
          by_cases h1 : c = o1.DoubleChar
          · rw [if_pos h1, if_pos (hD ▸ h1)]
            exact (IH (c2 :: cs2) hcs hE' hSp' buf).1
          · rw [if_neg h1, if_neg (fun hx => h1 (hD ▸ hx))]
            by_cases h2 : c = o1.EscapeChar
            · rw [if_pos h2, if_pos (hEc.mp h2)]
              by_cases h3 : c2 ∈ o1.DoubleEscapeChars
              · rw [if_pos h3, if_pos (show c2 ∈ o2.DoubleEscapeChars from hDE ▸ h3)]
                by_cases h4 : c2 = '\n'
                · rw [if_pos h4, if_pos h4]
                  exact (IH cs2 hcs2 hE2 hSp2 buf).2.2.2
                · rw [if_neg h4, if_neg h4]
                  exact (IH cs2 hcs2 hE2 hSp2 (buf ++ [c2])).2.2.2
              · rw [if_neg h3,
                  if_neg (fun hx => h3 (show c2 ∈ o1.DoubleEscapeChars from hDE.symm ▸ hx))]
                exact (IH cs2 hcs2 hE2 hSp2 (buf ++ [c, c2])).2.2.2
            · rw [if_neg h2, if_neg (fun hx => h2 (hEc.mpr hx))]
              exact (IH (c2 :: cs2) hcs hE' hSp' (buf ++ [c])).2.2.2

/-- Two configurations agreeing on the quote characters, the double-escape
set, the limit, and (over the code points of the input) on the escape and
split-character tests produce identical driver runs. -/
theorem splitLoopF_congr (o1 o2 : SplitOptions) (hS : o1.SingleChar = o2.SingleChar)
    (hD : o1.DoubleChar = o2.DoubleChar) (hDE : o1.DoubleEscapeChars = o2.DoubleEscapeChars)
    (hL : o1.Limit = o2.Limit) :
    ∀ (fuel : Nat) (input : Str) (sc : Str) (ws : List Str),
    (∀ c ∈ input, (c = o1.EscapeChar ↔ c = o2.EscapeChar)) →
    (∀ c ∈ input, (c ∈ o1.SplitChars ↔ c ∈ o2.SplitChars)) →
    splitLoopF fuel o1 sc ws input = splitLoopF fuel o2 sc ws input := by
  intro fuel
  induction fuel with
  | zero => intro input sc ws _ _; rw [splitLoopF_zero, splitLoopF_zero]
  | succ fuel IH =>
    intro input sc ws hE hSp
    match input with
    | [] => rw [splitLoopF_nil, splitLoopF_nil]
    | c :: cs =>
      have hE' : ∀ x ∈ cs, (x = o1.EscapeChar ↔ x = o2.EscapeChar) :=
        fun x hx => hE x (List.mem_cons_of_mem c hx)
      have hSp' : ∀ x ∈ cs, (x ∈ o1.SplitChars ↔ x ∈ o2.SplitChars) :=
        fun x hx => hSp x (List.mem_cons_of_mem c hx)
      have hEc := hE c (List.mem_cons_self c cs)
      have hw : splitWord (c :: cs) o1 = splitWord (c :: cs) o2 :=
        (parseCongr hS hD hDE (c :: cs).length (c :: cs) le_rfl hE hSp []).1
      by_cases hc : c ∈ sc
      · rw [splitLoopF_succ_mem fuel o1 ws cs hc, splitLoopF_succ_mem fuel o2 ws cs hc]
        exact IH cs sc ws hE' hSp'
      · have hstep : stepWordF fuel o1 sc ws (c :: cs) = stepWordF fuel o2 sc ws (c :: cs) := by
          match hsw : splitWord (c :: cs) o1 with
          | .error e =>
            have hsw2 : splitWord (c :: cs) o2 = .error e := hw.symm.trans hsw
            rw [stepWordF_err fuel sc ws hsw, stepWordF_err fuel sc ws hsw2]
          | .ok (w, rest) =>
            have hsw2 : splitWord (c :: cs) o2 = .ok (w, rest) := hw.symm.trans hsw
            by_cases hlim : o2.Limit = ((ws ++ [w]).length : Int) + 1
            · rw [stepWordF_ok_limit fuel sc ws hsw (hL.trans hlim),
                stepWordF_ok_limit fuel sc ws hsw2 hlim]
            · rw [stepWordF_ok fuel sc ws hsw (fun hx => hlim (hL.symm.trans hx)),
                stepWordF_ok fuel sc ws hsw2 hlim]
              refine IH rest sc (ws ++ [w]) ?_ ?_
              · exact fun x hx =>
                  hE x (List.mem_cons_of_mem c ((splitWord_cons_suffix hsw).subset hx))
              · exact fun x hx =>
                  hSp x (List.mem_cons_of_mem c ((splitWord_cons_suffix hsw).subset hx))
        by_cases hesc : c = o1.EscapeChar
        · match cs, hE', hSp', hstep with
          | [], hE', hSp', hstep =>
            rw [splitLoopF_succ_esc_nil fuel ws hc hesc,
              splitLoopF_succ_esc_nil fuel ws hc (hEc.mp hesc)]
          | c2 :: cs2, hE', hSp', hstep =>
            by_cases hnl : c2 = '\n'
            · rw [splitLoopF_succ_esc_nl fuel ws cs2 hc hesc hnl,
                splitLoopF_succ_esc_nl fuel ws cs2 hc (hEc.mp hesc) hnl]
              exact IH cs2 sc ws (fun x hx => hE' x (List.mem_cons_of_mem c2 hx))
                (fun x hx => hSp' x (List.mem_cons_of_mem c2 hx))
            · rw [splitLoopF_succ_esc_word fuel ws cs2 hc hesc hnl,
                splitLoopF_succ_esc_word fuel ws cs2 hc (hEc.mp hesc) hnl]
              exact hstep
        · rw [splitLoopF_succ_word fuel ws cs hc hesc,
            splitLoopF_succ_word fuel ws cs hc (fun hx => hesc (hEc.mpr hx))]
          exact hstep

/-! ### Equations for `contFrom` and separator-run corollaries -/

theorem contFrom_err {opts : SplitOptions} {w t : Str} {e : SplitError}
    (sc : Str) (ws1 : List Str) (h : rawLoop opts w t = .error e) :
    contFrom opts sc ws1 w t = (ws1, some e) := by
  unfold contFrom
  simp only [h]

theorem contFrom_ok {opts : SplitOptions} {w t w2 rest : Str}
    (sc : Str) (ws1 : List Str) (h : rawLoop opts w t = .ok (w2, rest))
    (hlim : ¬ opts.Limit = ((ws1 ++ [w2]).length : Int) + 1) :
    contFrom opts sc ws1 w t = splitLoopF (rest.length + 1) opts sc (ws1 ++ [w2]) rest := by
  unfold contFrom
  simp only [h]
  rw [if_neg hlim]

theorem contFrom_ok_limit {opts : SplitOptions} {w t w2 rest : Str}
    (sc : Str) (ws1 : List Str) (h : rawLoop opts w t = .ok (w2, rest))
    (hlim : opts.Limit = ((ws1 ++ [w2]).length : Int) + 1) :
    contFrom opts sc ws1 w t =
      (if trimSpace rest = [] then ws1 ++ [w2] else ws1 ++ [w2] ++ [trimSpace rest], none) := by
  unfold contFrom
  simp only [h]
  rw [if_pos hlim]

/-- A driver run over nothing but split characters produces no words. -/
theorem splitLoopF_run_only {opts : SplitOptions} {sc : Str} (r : Str)
    (hr : ∀ c ∈ r, c ∈ sc) (fuel : Nat) (ws : List Str) (hf : r.length < fuel) :
    splitLoopF fuel opts sc ws r = (ws, none) := by
  have h := @splitLoopF_skip_run opts sc r hr [] fuel ws (by simpa using hf)
  rw [List.append_nil] at h
  rw [h, splitLoopF_nil]

/-- Finishing a pending word against a pure separator run: the word is
closed unchanged and the run is skipped. -/
theorem contFrom_sep_run {r : Str} (hr : ∀ c ∈ r, c ∈ DefaultSplitChars)
    (ws1 : List Str) (w : Str) :
    contFrom DefaultSplitOptions DefaultSplitChars ws1 w r = (ws1 ++ [w], none) := by
  have hlim : ¬ DefaultSplitOptions.Limit = ((ws1 ++ [w]).length : Int) + 1 := by
    have : (((ws1 ++ [w]).length : Int)) ≥ 0 := Int.natCast_nonneg _
    have hd : DefaultSplitOptions.Limit = -1 := rfl
    omega
  match r, hr with
  | [], hr =>
    rw [contFrom_ok DefaultSplitChars ws1 (rawLoop_nil DefaultSplitOptions w) hlim]
    rw [splitLoopF_nil]
  | rc :: rr, hr =>
    have hrc := default_sep_not_special rc (hr rc (List.mem_cons_self rc rr))
    have hraw : rawLoop DefaultSplitOptions w (rc :: rr) = .ok (w, rr) := by
      rw [rawLoop_cons, if_neg hrc.1, if_neg hrc.2.1, if_neg hrc.2.2,
        if_pos (show rc ∈ DefaultSplitOptions.SplitChars from hr rc (List.mem_cons_self rc rr))]
    rw [contFrom_ok DefaultSplitChars ws1 hraw hlim]
    exact splitLoopF_run_only rr (fun c hc => hr c (List.mem_cons_of_mem rc hc))
      (rr.length + 1) (ws1 ++ [w]) (Nat.lt_succ_self _)

/-- Appending a separator run to an input on which `Split` succeeds does not
change the result. -/
theorem split_append_run {s r : Str} {ws : List Str}
    (hr : ∀ c ∈ r, c ∈ DefaultSplitChars) (h : Split s = (ws, none)) :
    Split (s ++ r) = (ws, none) := by
  rw [Split_eq] at h
  rw [Split_eq]
  have hext := splitLoopF_ext default_limit_neg (s.length + 1) s (Nat.lt_succ_self _)
    r ((s ++ r).length + 1) [] ws (Nat.lt_succ_self _) h
  rcases hext with h1 | ⟨ws1, w, hout, h2⟩
  · rw [h1]
    exact splitLoopF_run_only r hr (r.length + 1) ws (Nat.lt_succ_self _)
  · rw [h2, contFrom_sep_run hr ws1 w, hout]

/-! ## Claim C1 -/

/-- C1 counterexample: with `SplitChars` empty (all other options default),
`SplitWithOptions "a b"` returns the single word `"a b"`, while the default
configuration returns `["a", "b"]` — the empty `split_chars` is *not*
equivalent to the default inside word parsing, because `splitWord` consults
the unresolved `opts.SplitChars`. -/
theorem c1_counterexample :
    SplitWithOptions ['a', ' ', 'b'] (some { DefaultSplitOptions with SplitChars := [] }) =
      ([['a', ' ', 'b']], none) ∧
    SplitWithOptions ['a', ' ', 'b'] (some DefaultSplitOptions) = ([['a'], ['b']], none) ∧
    ¬ (SplitWithOptions ['a', ' ', 'b'] (some { DefaultSplitOptions with SplitChars := [] }) =
      SplitWithOptions ['a', ' ', 'b'] (some DefaultSplitOptions)) := by
  refine ⟨by decide, by decide, by decide⟩

/-- C1 amended: an empty `split_chars` is equivalent to the default only at
the driver level — the `limit = 1` path (which trims with the resolved set)
behaves identically, and whole-split equivalence holds for every input that
contains none of the default split characters, so that the word parser's
(unresolved) split set is never consulted on a code point where the two
configurations differ. -/
theorem c1_empty_splitchars_driver_equiv :
    (∀ input : Str,
      SplitWithOptions input (some { DefaultSplitOptions with SplitChars := [], Limit := 1 }) =
        SplitWithOptions input (some { DefaultSplitOptions with Limit := 1 })) ∧
    (∀ input : Str, (∀ c ∈ input, c ∉ DefaultSplitChars) →
      SplitWithOptions input (some { DefaultSplitOptions with SplitChars := [] }) =
        SplitWithOptions input (some DefaultSplitOptions)) := by
  constructor
  · intro input
    rfl
  · intro input h
    have e1 : SplitWithOptions input (some { DefaultSplitOptions with SplitChars := [] }) =
        splitLoopF (input.length + 1) { DefaultSplitOptions with SplitChars := [] }
          DefaultSplitChars [] input := rfl
    have e2 : SplitWithOptions input (some DefaultSplitOptions) =
        splitLoopF (input.length + 1) DefaultSplitOptions DefaultSplitChars [] input :=
      rfl
    rw [e1, e2]
    refine splitLoopF_congr { DefaultSplitOptions with SplitChars := [] }
      DefaultSplitOptions rfl rfl rfl rfl (input.length + 1) input DefaultSplitChars []
      (fun c _ => Iff.rfl) ?_
    intro c hc
    constructor
    · intro hx; exact absurd hx (List.not_mem_nil c)
    · intro hx; exact absurd hx (h c hc)

/-- C1 witness. -/
theorem c1_witness :
    SplitWithOptions ['x'] (some { DefaultSplitOptions with SplitChars := [] }) =
      SplitWithOptions ['x'] (some DefaultSplitOptions) :=
  c1_empty_splitchars_driver_equiv.2 ['x'] (by decide)

/-! ## Claim C2 -/

/-- C2 counterexample: `Split "''"` succeeds and returns a single *empty*
word — the empty single-quoted string produces an empty element, refuting
"every element of the returned word sequence is a non-empty string". -/
theorem c2_counterexample :
    Split [DefaultSingleChar, DefaultSingleChar] = ([([] : Str)], none) ∧
    ([] : Str) ∈ (Split [DefaultSingleChar, DefaultSingleChar]).1 := by
  refine ⟨by decide, by decide⟩

/-- C2 amended: every word of any split result (successful or not) is
non-empty provided the input contains neither the configured single-quote nor
the configured double-quote code point; quoted spans are the only source of
empty words. -/
theorem c2_words_nonempty : ∀ (input : Str) (opts : SplitOptions),
    opts.SingleChar ∉ input → opts.DoubleChar ∉ input →
    ∀ w ∈ (SplitWithOptions input (some opts)).1, w ≠ [] := by
  intro input opts hq hd
  unfold SplitWithOptions
  simp only [Option.getD_some]
  by_cases h0 : opts.Limit = 0
  · rw [if_pos h0]
    intro w hw
    exact absurd hw (List.not_mem_nil w)
  · rw [if_neg h0]
    by_cases h1 : opts.Limit = 1
    · rw [if_pos h1]
      have aux : ∀ (t w : Str), w ∈ (if t = [] then ([] : List Str) else [t]) → w ≠ [] := by
        intro t w hw
        by_cases ht : t = []
        · rw [if_pos ht] at hw; cases hw
        · rw [if_neg ht] at hw
          rw [List.mem_singleton.mp hw]
          exact ht
      exact fun w hw => aux _ w hw
    · rw [if_neg h1]
      refine splitLoopF_nonempty (input.length + 1) input opts _ [] ?_ hq hd ?_
      · intro c hcm
        by_cases hempty : opts.SplitChars = []
        · rw [hempty] at hcm; cases hcm
        · rw [if_neg hempty]; exact hcm
      · intro w hw; cases hw

/-- C2 witness: the first word of `Split "a b"` is non-empty, by the amended
theorem applied at that concrete input. -/
theorem c2_witness : (['a'] : Str) ≠ [] :=
  c2_words_nonempty ['a', ' ', 'b'] DefaultSplitOptions (by decide) (by decide)
    ['a'] (by decide)

/-! ## Claim C3 -/

/-- C3 counterexample: with `limit = 2`, the tail left after the first word
of `"a  b"` is `" b"`; trimming exactly the six ASCII whitespace
characters would leave it unchanged, yet the code (via `strings.TrimSpace`,
i.e. Unicode white space) strips the no-break space U+00A0 and returns
`["a", "b"]`. -/
theorem c3_counterexample :
    SplitN ['a', ' ', Char.ofNat 160, 'b'] 2 = ([['a'], ['b']], none) ∧
    asciiTrim [Char.ofNat 160, 'b'] = [Char.ofNat 160, 'b'] ∧
    ¬ (['b'] = [Char.ofNat 160, 'b']) := by
  refine ⟨by decide, by decide, by decide⟩

/-- C3 amended: when the appended word brings the count to `limit − 1`, the
unsplit tail is trimmed at both ends of exactly the code points in Go's
Unicode white-space set (the six ASCII whitespace characters plus U+0085,
U+00A0 and the Unicode space separators listed in `specWhitespaceCodes`),
then appended when non-empty. -/
theorem c3_limit_tail_unicode_trim :
    ∀ (fuel : Nat) (opts : SplitOptions) (sc : Str) (ws : List Str) (input w rest : Str),
    splitWord input opts = .ok (w, rest) →
    opts.Limit = (ws.length : Int) + 2 →
    stepWordF fuel opts sc ws input =
      (if specTrimUnicode rest = [] then ws ++ [w]
       else ws ++ [w] ++ [specTrimUnicode rest], none) := by
  intro fuel opts sc ws input w rest hsw hlim
  have hlen : (((ws ++ [w]).length : Int)) = (ws.length : Int) + 1 := by
    simp [List.length_append]
  rw [stepWordF_ok_limit fuel sc ws hsw (by omega)]
  rw [trimSpace_eq_spec rest]

/-- C3 witness. -/
theorem c3_witness :
    stepWordF 0 { DefaultSplitOptions with Limit := 2 } DefaultSplitChars []
      ['a', ' ', Char.ofNat 160, 'b'] = ([['a'], ['b']], none) :=
  (c3_limit_tail_unicode_trim 0 { DefaultSplitOptions with Limit := 2 } DefaultSplitChars []
    ['a', ' ', Char.ofNat 160, 'b'] ['a'] [Char.ofNat 160, 'b']
    rfl (by decide)).trans (by decide)

/-! ## Claim C4 -/

/-- C4 counterexample: for `s = "a\"` and the separator run `r = " "`,
`split(s)` fails with the unterminated-escape error while
`split(r + s + r)` succeeds with `["a "]` — the appended separator becomes
the escaped code point, so `split(s) = split(r + s + r)` fails for inputs on
which `split` does not succeed. -/
theorem c4_counterexample :
    (∀ c ∈ [' '], c ∈ DefaultSplitChars) ∧
    Split ['a', '\\'] = ([], some .unterminatedEscape) ∧
    Split ([' '] ++ ['a', '\\'] ++ [' ']) = ([['a', ' ']], none) ∧
    ¬ (Split ([' '] ++ ['a', '\\'] ++ [' ']) = Split ['a', '\\']) := by
  refine ⟨by decide, by decide, by decide, by decide⟩

/-- C4 amended: with the default configuration, (i) a leading separator run
never affects the result; (ii) for inputs on which `split` succeeds,
surrounding the input with separator runs leaves the result unchanged; and
(iii) at a word boundary any two separator runs are interchangeable (so an
internal separator run between words collapses to a single separator). -/
theorem c4_separator_idempotence :
    (∀ (r t : Str), (∀ c ∈ r, c ∈ DefaultSplitChars) → Split (r ++ t) = Split t) ∧
    (∀ (s r : Str) (ws : List Str), (∀ c ∈ r, c ∈ DefaultSplitChars) →
      Split s = (ws, none) → Split (r ++ s ++ r) = (ws, none)) ∧
    (∀ (r1 r2 t : Str) (ws : List Str), (∀ c ∈ r1, c ∈ DefaultSplitChars) →
      (∀ c ∈ r2, c ∈ DefaultSplitChars) →
      splitLoopF ((r1 ++ t).length + 1) DefaultSplitOptions DefaultSplitChars ws (r1 ++ t) =
        splitLoopF ((r2 ++ t).length + 1) DefaultSplitOptions DefaultSplitChars ws (r2 ++ t)) := by
  have hlead : ∀ (r t : Str), (∀ c ∈ r, c ∈ DefaultSplitChars) → Split (r ++ t) = Split t := by
    intro r t hr
    rw [Split_eq, Split_eq]
    exact splitLoopF_skip_run r hr t ((r ++ t).length + 1) [] (Nat.lt_succ_self _)
  refine ⟨hlead, ?_, ?_⟩
  · intro s r ws hr h
    rw [List.append_assoc, hlead r (s ++ r) hr]
    exact split_append_run hr h
  · intro r1 r2 t ws hr1 hr2
    rw [splitLoopF_skip_run r1 hr1 t ((r1 ++ t).length + 1) ws (Nat.lt_succ_self _),
      splitLoopF_skip_run r2 hr2 t ((r2 ++ t).length + 1) ws (Nat.lt_succ_self _)]

/-- C4 witness. -/
theorem c4_witness : Split ([' '] ++ ['a'] ++ [' ']) = ([['a']], none) :=
  c4_separator_idempotence.2.1 ['a'] [' '] [['a']] (by decide) (by decide)

/-! ## Claim C5 -/

/-- C5 counterexample: with `NoEscapeSplitOptions` the escape branch *is*
entered for the null code point itself: the input consisting of one NUL
fails with the unterminated-escape error (driver look-ahead), and a NUL
between two letters acts as an escape introducer and is swallowed — so not
every code point is treated as an ordinary character. -/
theorem c5_counterexample :
    SplitWithOptions [Char.ofNat 0] (some NoEscapeSplitOptions) =
      ([], some .unterminatedEscape) ∧
    SplitWithOptions ['a', Char.ofNat 0, 'b'] (some NoEscapeSplitOptions) =
      ([['a', 'b']], none) ∧
    ¬ (['a', 'b'] = ['a', Char.ofNat 0, 'b']) := by
  refine ⟨by decide, by decide, by decide⟩

/-- C5 amended: with `NoEscapeSplitOptions`, for every input not containing
the null code point no escape handling occurs anywhere: the result coincides
with the result under any other escape character that is absent from the
input, and in particular backslashes are ordinary characters
(`"a\ b"` splits into `["a\", "b"]` with the backslash kept verbatim). -/
theorem c5_escape_disabled :
    (∀ (input : Str) (e : Char), Char.ofNat 0 ∉ input → e ∉ input →
      SplitWithOptions input (some NoEscapeSplitOptions) =
        SplitWithOptions input (some { DefaultSplitOptions with EscapeChar := e })) ∧
    SplitWithOptions ['a', '\\', ' ', 'b'] (some NoEscapeSplitOptions) =
      ([['a', '\\'], ['b']], none) := by
  constructor
  · intro input e h0 he
    have e1 : SplitWithOptions input (some NoEscapeSplitOptions) =
        splitLoopF (input.length + 1) NoEscapeSplitOptions DefaultSplitChars [] input := rfl
    have e2 : SplitWithOptions input (some { DefaultSplitOptions with EscapeChar := e }) =
        splitLoopF (input.length + 1) { DefaultSplitOptions with EscapeChar := e }
          DefaultSplitChars [] input := rfl
    rw [e1, e2]
    refine splitLoopF_congr NoEscapeSplitOptions
      { DefaultSplitOptions with EscapeChar := e } rfl rfl rfl rfl
      (input.length + 1) input DefaultSplitChars [] ?_ (fun c _ => Iff.rfl)
    intro c hc
    constructor
    · intro hx
      rw [hx] at hc
      exact absurd hc h0
    · intro hx
      rw [hx] at hc
      exact absurd hc he
  · decide

/-- C5 witness. -/
theorem c5_witness :
    SplitWithOptions ['a', '\\', ' ', 'b'] (some NoEscapeSplitOptions) =
      SplitWithOptions ['a', '\\', ' ', 'b']
        (some { DefaultSplitOptions with EscapeChar := 'z' }) :=
  c5_escape_disabled.1 ['a', '\\', ' ', 'b'] 'z' (by decide) (by decide)

/-! ## Claim C6 -/

/-- C6: for every input and configuration with `limit ≥ 0`, the returned
word sequence has length at most `limit` (so limit 0 yields no words and
limit 1 at most one). -/
theorem c6_length_bound : ∀ (input : Str) (opts : SplitOptions), 0 ≤ opts.Limit →
    ((SplitWithOptions input (some opts)).1.length : Int) ≤ opts.Limit := by
  intro input opts hpos
  unfold SplitWithOptions
  simp only [Option.getD_some]
  by_cases h0 : opts.Limit = 0
  · rw [if_pos h0, h0]
    exact (by decide : ((([] : List Str).length : Int)) ≤ 0)
  · rw [if_neg h0]
    by_cases h1 : opts.Limit = 1
    · rw [if_pos h1, h1]
      have aux : ∀ (t : Str),
          (((if t = [] then ([] : List Str) else [t]).length : Int)) ≤ 1 := by
        intro t
        by_cases ht : t = []
        · rw [if_pos ht]; decide
        · rw [if_neg ht]; simp
      exact aux _
    · rw [if_neg h1]
      exact splitLoopF_length_le (input.length + 1) input opts _ [] (by
        have : ((([] : List Str).length : Int)) = 0 := by simp
        omega)

/-- C6 witness. -/
theorem c6_witness :
    ((SplitWithOptions ['a', ' ', 'b', ' ', 'c']
      (some { DefaultSplitOptions with Limit := 2 })).1.length : Int) ≤ 2 :=
  c6_length_bound ['a', ' ', 'b', ' ', 'c'] { DefaultSplitOptions with Limit := 2 } (by decide)

/-! ## Claim C7 -/

/-- C7: with the default configuration, wrapping any body free of the
single-quote code point in single quotes yields exactly that body as the one
word, copied verbatim with no escape processing (quote transparency). -/
theorem c7_quote_transparency : ∀ b : Str, DefaultSingleChar ∉ b →
    Split (DefaultSingleChar :: b ++ [DefaultSingleChar]) = ([b], none) := by
  intro b hb
  rw [Split_eq]
  have hlen : (DefaultSingleChar :: b ++ [DefaultSingleChar]).length + 1 =
      (b.length + 2) + 1 := by
    simp
  rw [hlen, List.cons_append]
  rw [splitLoopF_succ_word (b.length + 2) [] (b ++ [DefaultSingleChar]) (by decide) (by decide)]
  have hsw : splitWord (DefaultSingleChar :: (b ++ [DefaultSingleChar])) DefaultSplitOptions =
      .ok (b, []) := by
    show rawLoop DefaultSplitOptions [] (DefaultSingleChar :: (b ++ [DefaultSingleChar])) = _
    rw [rawLoop_cons,
      if_pos (show DefaultSingleChar = DefaultSplitOptions.SingleChar from rfl)]
    rw [show (b ++ [DefaultSingleChar] : Str) = b ++ DefaultSplitOptions.SingleChar :: []
      from rfl]
    rw [singleLoop_thru b hb [] [], rawLoop_nil, List.nil_append]
  have hlim : ¬ DefaultSplitOptions.Limit = ((([] : List Str) ++ [b]).length : Int) + 1 := by
    have hl : ((([] : List Str) ++ [b]).length : Int) = 1 := by simp
    rw [hl]; decide
  rw [stepWordF_ok (b.length + 2) DefaultSplitChars [] hsw hlim]
  rw [show (([] : List Str) ++ [b]) = [b] from rfl, splitLoopF_nil]

/-- C7 witness. -/
theorem c7_witness :
    Split (DefaultSingleChar :: ['a', ' ', 'b'] ++ [DefaultSingleChar]) =
      ([['a', ' ', 'b']], none) :=
  c7_quote_transparency ['a', ' ', 'b'] (by decide)

/-! ## Claim C8 -/

/-- C8: inside a word, an escape character followed by a newline contributes
nothing to the accumulator, while an escape character followed by any other
code point (even a separator or quote) contributes exactly that code point
with the backslash dropped; in particular `foo\ bar` splits into the single
word `foo bar`. -/
theorem c8_escape_in_word :
    (∀ (buf rest : Str), rawLoop DefaultSplitOptions buf ('\\' :: '\n' :: rest) =
      rawLoop DefaultSplitOptions buf rest) ∧
    (∀ (buf rest : Str) (c : Char), ¬ c = '\n' →
      rawLoop DefaultSplitOptions buf ('\\' :: c :: rest) =
        rawLoop DefaultSplitOptions (buf ++ [c]) rest) ∧
    Split ['f', 'o', 'o', '\\', ' ', 'b', 'a', 'r'] =
      ([['f', 'o', 'o', ' ', 'b', 'a', 'r']], none) := by
  refine ⟨?_, ?_, by decide⟩
  · intro buf rest
    rw [rawLoop_cons, if_neg (by decide), if_neg (by decide),
      if_pos (show ('\\' : Char) = DefaultSplitOptions.EscapeChar from rfl),
      escapeLoop_cons, if_pos rfl]
  · intro buf rest c hc
    rw [rawLoop_cons, if_neg (by decide), if_neg (by decide),
      if_pos (show ('\\' : Char) = DefaultSplitOptions.EscapeChar from rfl),
      escapeLoop_cons, if_neg hc]

/-- C8 witness. -/
theorem c8_witness :
    rawLoop DefaultSplitOptions [] ['\\', 'x'] = rawLoop DefaultSplitOptions ([] ++ ['x']) [] :=
  c8_escape_in_word.2.1 [] [] 'x' (by decide)

/-! ## Claim C9 -/

/-- C9: with the default configuration, appending an unterminated
single-quoted span (an opening quote whose body never closes) to any input
on which `Split` succeeds makes the whole split fail with exactly the
unterminated-single-quote error, independently of the earlier words; e.g.
`foo 'unterminated`. -/
theorem c9_unterminated_single_quote :
    (∀ (s b : Str) (ws : List Str), Split s = (ws, none) → DefaultSingleChar ∉ b →
      (Split (s ++ DefaultSingleChar :: b)).2 = some .unterminatedSingleQuote) ∧
    (Split (['f', 'o', 'o', ' '] ++ DefaultSingleChar ::
      ['u', 'n', 't', 'e', 'r', 'm', 'i', 'n', 'a', 't', 'e', 'd'])).2 =
        some .unterminatedSingleQuote := by
  refine ⟨?_, by decide⟩
  intro s b ws hs hb
  rw [Split_eq] at hs
  rw [Split_eq]
  have hext := splitLoopF_ext default_limit_neg (s.length + 1) s (Nat.lt_succ_self _)
    (DefaultSingleChar :: b) ((s ++ DefaultSingleChar :: b).length + 1) [] ws
    (Nat.lt_succ_self _) hs
  rcases hext with h1 | ⟨ws1, w, hout, h2⟩
  · rw [h1, splitLoopF_quote_fail hb ((DefaultSingleChar :: b).length + 1) ws (by omega)]
  · rw [h2, contFrom_err DefaultSplitChars ws1 (rawLoop_quote_fail hb w)]

/-- C9 witness. -/
theorem c9_witness :
    (Split (['f'] ++ DefaultSingleChar :: ['x'])).2 = some .unterminatedSingleQuote :=
  c9_unterminated_single_quote.1 ['f'] ['x'] [['f']] (by decide) (by decide)

/-! ## Claim C10 -/

/-- C10: when the split stops with an error, the words returned alongside it
are exactly the words successfully parsed before the failing construct, in
input order, and are never cleared: (i) any driver result extends the
already-accumulated words; (ii) appending a separator and an unterminated
single-quoted span to an input on which `Split` succeeds with words `ws`
returns exactly `(ws, UnterminatedSingleQuote)`; (iii) concretely,
`foo 'bar` yields `(["foo"], UnterminatedSingleQuote)`. -/
theorem c10_partial_words_on_error :
    (∀ (fuel : Nat) (input : Str) (opts : SplitOptions) (sc : Str) (ws : List Str)
      (e : SplitError), (splitLoopF fuel opts sc ws input).2 = some e →
      ∃ tail, (splitLoopF fuel opts sc ws input).1 = ws ++ tail) ∧
    (∀ (s b : Str) (ws : List Str), Split s = (ws, none) → DefaultSingleChar ∉ b →
      Split (s ++ ' ' :: DefaultSingleChar :: b) = (ws, some .unterminatedSingleQuote)) ∧
    Split (['f', 'o', 'o', ' '] ++ DefaultSingleChar :: ['b', 'a', 'r']) =
      ([['f', 'o', 'o']], some .unterminatedSingleQuote) := by
  refine ⟨?_, ?_, by decide⟩
  · intro fuel input opts sc ws e _
    exact splitLoopF_words_extend fuel input opts sc ws
  · intro s b ws hs hb
    rw [Split_eq] at hs
    rw [Split_eq]
    have hext := splitLoopF_ext default_limit_neg (s.length + 1) s (Nat.lt_succ_self _)
      (' ' :: DefaultSingleChar :: b) ((s ++ ' ' :: DefaultSingleChar :: b).length + 1) [] ws
      (Nat.lt_succ_self _) hs
    rcases hext with h1 | ⟨ws1, w, hout, h2⟩
    · rw [h1]
      have hstep : (' ' :: DefaultSingleChar :: b).length + 1 =
          ((DefaultSingleChar :: b).length + 1) + 1 := by
        simp
      rw [hstep, splitLoopF_succ_mem ((DefaultSingleChar :: b).length + 1)
        DefaultSplitOptions ws (DefaultSingleChar :: b) (by decide)]
      exact splitLoopF_quote_fail hb ((DefaultSingleChar :: b).length + 1) ws (by omega)
    · rw [h2]
      have hraw : rawLoop DefaultSplitOptions w (' ' :: DefaultSingleChar :: b) =
          .ok (w, DefaultSingleChar :: b) := by
        rw [rawLoop_cons, if_neg (by decide), if_neg (by decide), if_neg (by decide),
          if_pos (by decide)]
      have hlim : ¬ DefaultSplitOptions.Limit = ((ws1 ++ [w]).length : Int) + 1 := by
        have : (((ws1 ++ [w]).length : Int)) ≥ 0 := Int.natCast_nonneg _
        have hd : DefaultSplitOptions.Limit = -1 := rfl
        omega
      rw [contFrom_ok DefaultSplitChars ws1 hraw hlim]
      rw [splitLoopF_quote_fail hb ((DefaultSingleChar :: b).length + 1) (ws1 ++ [w]) (by omega)]
      rw [hout]

/-- C10 witness. -/
theorem c10_witness :
    Split (['a'] ++ ' ' :: DefaultSingleChar :: ['b']) =
      ([['a']], some .unterminatedSingleQuote) :=
  c10_partial_words_on_error.2.1 ['a'] ['b'] [['a']] (by decide) (by decide)

end Shellquote
